import Mathlib

/-!
Verification development for the autonomous task orchestration engine
(`src/planning/planner.ts`, `src/planning/task-manager.ts`,
`src/execution/execution-flow.ts` with its embedded `TaskExecutor`, and the
`CommandExecutor` safety layer).

The TypeScript sources are shallowly embedded: each Lean definition below is a
direct translation of the function of the same name in the source.  Wall-clock
data (`Date.now()`, `createdAt`, `duration`), process identifiers and event
emission are not modelled; asynchronous collaborators (the LLM classifier,
approval responses, spawned processes, the abort signal) are passed in as
explicit environment parameters.
-/

namespace NipponCode

/-- Enumeration `TaskPriority` from `planning/interfaces.ts`. -/
inductive TaskPriority where
  | critical | high | medium | low
deriving DecidableEq, Repr

/-- Enumeration `TaskStatus` from `planning/interfaces.ts`. -/
inductive TaskStatus where
  | pending | planning | executing | completed | failed | skipped
deriving DecidableEq, Repr

/-- Enumeration `SafetyLevel` from `planning/interfaces.ts`. -/
inductive SafetyLevel where
  | safe | caution | danger | forbidden
deriving DecidableEq, Repr

/-- Command `type` field of interface `Command` from `planning/interfaces.ts`. -/
inductive CommandType where
  | shell | file | api | internal
deriving DecidableEq, Repr

/-- Category field of interface `CommandIntent` from `planning/interfaces.ts`. -/
inductive IntentCategory where
  | read | write | execute | delete | network
deriving DecidableEq, Repr

/-- Interface `Task` (`planning/interfaces.ts`).  The TS `dependencies?: string[]`
is optional; `undefined` is modelled as the empty list (the source only ever
iterates it guarded by `if (task.dependencies)`, which is equivalent).
`createdAt`/`updatedAt` dates are not modelled. -/
structure Task where
  id : String
  name : String
  description : String
  priority : TaskPriority
  status : TaskStatus
  estimatedDuration : Option Nat
  dependencies : List String
deriving DecidableEq, Repr

/-- Interface `ExecutionStep` (`planning/interfaces.ts`); `expectedOutput` is
display-only metadata and omitted. -/
structure ExecutionStep where
  id : String
  description : String
  command : Option String
  requiresApproval : Bool
  safetyLevel : SafetyLevel
deriving DecidableEq, Repr

/-- Interface `ResourceRequirement` (`planning/interfaces.ts`). -/
structure ResourceRequirement where
  type : String
  name : String
  required : Bool
deriving DecidableEq, Repr

/-- Interface `Risk` (`planning/interfaces.ts`). -/
structure Risk where
  type : String
  description : String
  probability : String
  impact : String
  mitigation : String
deriving DecidableEq, Repr

/-- Interface `RollbackStrategy` (`planning/interfaces.ts`). -/
structure RollbackStrategy where
  steps : List String
  automatic : Bool
deriving DecidableEq, Repr

/-- Interface `DetailedTask` (`planning/interfaces.ts`): a `SubTask`
(`parentId`, `order`) extended with steps, resources, risks and an optional
rollback strategy. -/
structure DetailedTask where
  id : String
  parentId : String
  order : Nat
  name : String
  description : String
  priority : TaskPriority
  status : TaskStatus
  estimatedDuration : Option Nat
  dependencies : List String
  steps : List ExecutionStep
  resources : List ResourceRequirement
  risks : List Risk
  rollbackStrategy : Option RollbackStrategy
deriving DecidableEq, Repr

/-- Interface `TaskPlan` (`planning/interfaces.ts`); dates omitted. -/
structure TaskPlan where
  id : String
  userRequest : String
  tasks : List Task
  estimatedTotalDuration : Nat
  approved : Bool
deriving DecidableEq, Repr

/-- Interface `ValidationResult` (`planning/interfaces.ts`). -/
structure ValidationResult where
  valid : Bool
  errors : List String
  warnings : List String
  suggestions : List String
deriving DecidableEq, Repr

/-- Interface `Command` (`planning/interfaces.ts`).  The `id` field
(`cmd-` + `Date.now()`), `workingDirectory` (`process.cwd()`) and
`environment` are never read by the verified logic and are not modelled. -/
structure Command where
  type : CommandType
  command : String
  args : List String
deriving DecidableEq, Repr

/-- Interface `CommandIntent` (`planning/interfaces.ts`). -/
structure CommandIntent where
  purpose : String
  category : IntentCategory
  targetResources : List String
  estimatedRisk : SafetyLevel
deriving DecidableEq, Repr

/-! ### Regex denylist patterns

The static denylists in `TaskExecutor.checkSafety` (execution-flow.ts) and
`CommandExecutor.validateSafety` (the unnamed command-executor source) are
JavaScript regular expressions built from literal characters, `\s+`,
character classes, `.*`, the end-of-input alternative `($|\s)` and (in the
fork-bomb pattern) top-level alternation.  They are embedded as token lists
with a backtracking matcher whose semantics follow `RegExp.prototype.test`
(match starting at any position). -/

/-- One token of the pattern language used by the denylist regexes. -/
inductive RTok where
  | lit (c : Char)
  | cls (cs : List Char)
  | wsPlus
  | anyStar
  | eolOrWs
deriving DecidableEq, Repr

/-- JavaScript `\s` on the ASCII range: space, tab, newline, carriage return,
vertical tab, form feed (astral white space never occurs in the commands the
claims quantify over). -/
def isJsWs (c : Char) : Bool :=
  c = ' ' || c = '\t' || c = '\n' || c = '\r' || c = Char.ofNat 11 || c = Char.ofNat 12

/-- JavaScript `.` (no `s` flag): any character except a line terminator. -/
def notNewline (c : Char) : Bool :=
  !(c = '\n' || c = '\r')

/-- Backtracking matcher: does the token list match a prefix of the input?
Every recursive call strictly decreases `ps.length + xs.length`, so the
structural `fuel` argument, seeded with that bound plus one by `reMatch`,
can never be exhausted: the `fuel = 0` branch is unreachable. -/
def reMatchF : Nat → List RTok → List Char → Bool
  | 0, _, _ => false
  | _ + 1, [], _ => true
  | _ + 1, .lit _ :: _, [] => false
  | f + 1, .lit c :: ps, x :: xs => x = c && reMatchF f ps xs
  | _ + 1, .cls _ :: _, [] => false
  | f + 1, .cls cs :: ps, x :: xs => cs.contains x && reMatchF f ps xs
  | _ + 1, .wsPlus :: _, [] => false
  | f + 1, .wsPlus :: ps, x :: xs =>
      isJsWs x && (reMatchF f ps xs || reMatchF f (.wsPlus :: ps) xs)
  | f + 1, .anyStar :: ps, [] => reMatchF f ps []
  | f + 1, .anyStar :: ps, x :: xs =>
      reMatchF f ps (x :: xs) || (notNewline x && reMatchF f (.anyStar :: ps) xs)
  | f + 1, .eolOrWs :: ps, [] => reMatchF f ps []
  | f + 1, .eolOrWs :: ps, x :: xs => isJsWs x && reMatchF f ps xs

/-- The matcher with sufficient fuel. -/
def reMatch (ps : List RTok) (xs : List Char) : Bool :=
  reMatchF (ps.length + xs.length + 1) ps xs

/-- `RegExp.prototype.test`: try to match starting at every position. -/
def reTest (ps : List RTok) : List Char → Bool
  | [] => reMatch ps []
  | x :: xs => reMatch ps (x :: xs) || reTest ps xs

/-- Run a pattern against a string. -/
def reTestStr (ps : List RTok) (s : String) : Bool :=
  reTest ps s.toList

/-- Literal characters of a string as pattern tokens. -/
def lits (s : String) : List RTok :=
  s.toList.map RTok.lit

/-- Pattern `rm\s+-rf\s+\/` of `TaskExecutor.checkSafety`. -/
def patRmRf : List RTok :=
  lits ("rm") ++ [RTok.wsPlus] ++ lits ("-rf") ++ [RTok.wsPlus] ++ lits ("/")

/-- Pattern `format\s+` of `TaskExecutor.checkSafety`. -/
def patFormat : List RTok :=
  lits ("format") ++ [RTok.wsPlus]

/-- Pattern `del\s+\/s\s+\/q` of `TaskExecutor.checkSafety`. -/
def patDelSQ : List RTok :=
  lits ("del") ++ [RTok.wsPlus] ++ lits ("/s") ++ [RTok.wsPlus] ++ lits ("/q")

/-- Pattern `>\/dev\/sda` of both denylists. -/
def patDevSda : List RTok :=
  lits (">/dev/sda")

/-- The `dangerousPatterns` array of `TaskExecutor.checkSafety`. -/
def dangerousPatterns : List (List RTok) :=
  [patRmRf, patFormat, patDelSQ, patDevSda]

/-- Does the full command text match the `TaskExecutor` static denylist? -/
def matchesDangerousPattern (s : String) : Bool :=
  dangerousPatterns.any (fun p => reTestStr p s)

/-- Pattern `rm\s+-rf\s+\/($|\s)` of `CommandExecutor.validateSafety`. -/
def patRmRfRoot : List RTok :=
  lits ("rm") ++ [RTok.wsPlus] ++ lits ("-rf") ++ [RTok.wsPlus] ++ lits ("/") ++ [RTok.eolOrWs]

/-- Pattern `format\s+[cC]:` of `CommandExecutor.validateSafety`. -/
def patFormatC : List RTok :=
  lits ("format") ++ [RTok.wsPlus] ++ [RTok.cls ['c', 'C']] ++ lits (":")

/-- Pattern `dd\s+if=.*of=\/dev\/` of `CommandExecutor.validateSafety`. -/
def patDdDev : List RTok :=
  lits ("dd") ++ [RTok.wsPlus] ++ lits ("if=") ++ [RTok.anyStar] ++ lits ("of=/dev/")

/-- Fork-bomb pattern of `CommandExecutor.validateSafety`.  In JavaScript the
written regex parses as a top-level alternation whose first branch contains an
empty group, so the pattern is the disjunction of the two literal branches
embedded here. -/
def matchesForkBomb (s : String) : Bool :=
  reTestStr (lits (":\x7b :")) s || reTestStr (lits (":& \x7d;:")) s

/-- The `forbiddenPatterns` check of `CommandExecutor.validateSafety`. -/
def matchesForbiddenPattern (s : String) : Bool :=
  reTestStr patRmRfRoot s || reTestStr patFormatC s || matchesForkBomb s ||
    reTestStr patDevSda s || reTestStr patDdDev s

/-! ### Command parsing (`TaskExecutor.parseCommand` / `parseCommandArgs`) -/

/-- Loop state of `TaskExecutor.parseCommandArgs`.  The JS `quoteChar` is the
empty string when no quote is open; that is modelled by `none`. -/
structure ArgState where
  args : List String
  current : String
  inQuotes : Bool
  quoteChar : Option Char
  escapeNext : Bool
deriving DecidableEq, Repr

/-- One iteration of the character loop of `parseCommandArgs`. -/
def argStep (st : ArgState) (ch : Char) : ArgState :=
  if st.escapeNext then
    { st with current := st.current.push ch, escapeNext := false }
  else if ch = Char.ofNat 92 then
    { st with escapeNext := true }
  else if !st.inQuotes && (ch = Char.ofNat 34 || ch = Char.ofNat 39) then
    { st with inQuotes := true, quoteChar := some ch }
  else if st.inQuotes && st.quoteChar = some ch then
    { st with inQuotes := false, quoteChar := none }
  else if !st.inQuotes && ch = ' ' then
    if st.current ≠ "" then { st with args := st.args ++ [st.current], current := "" } else st
  else
    { st with current := st.current.push ch }

/-- `TaskExecutor.parseCommandArgs`: quote- and escape-aware splitting. -/
def parseCommandArgs (input : String) : List String :=
  let st := input.toList.foldl argStep ⟨[], "", false, none, false⟩
  if st.current ≠ "" then st.args ++ [st.current] else st.args

/-- JavaScript `String.prototype.trim` on the ASCII range (list-based so that
the kernel can evaluate it). -/
def jsTrim (s : String) : String :=
  String.mk (((s.toList.dropWhile (fun c => isJsWs c)).reverse.dropWhile
    (fun c => isJsWs c)).reverse)

/-- `String.prototype.startsWith`, list-based. -/
def strStartsWith (s pre : String) : Bool :=
  pre.toList.isPrefixOf s.toList

/-- Helper for `split(":")`. -/
def splitOnColonAux : List Char → List Char → List String
  | [], acc => [String.mk acc.reverse]
  | c :: cs, acc =>
      if c = ':' then String.mk acc.reverse :: splitOnColonAux cs []
      else splitOnColonAux cs (c :: acc)

/-- JavaScript `String.prototype.split(":")`, list-based. -/
def splitOnColon (s : String) : List String :=
  splitOnColonAux s.toList []

/-- `TaskExecutor.parseCommand`: fixed prefix convention (`file:`, `api:`,
`internal:`, otherwise shell). -/
def parseCommand (commandStr : String) : Command :=
  let parts := parseCommandArgs (jsTrim commandStr)
  let cmd := parts.headD ""
  let args := parts.tail
  let type :=
    if strStartsWith cmd ("file:") then CommandType.file
    else if strStartsWith cmd ("api:") then CommandType.api
    else if strStartsWith cmd ("internal:") then CommandType.internal
    else CommandType.shell
  { type := type
    command := if type ≠ CommandType.shell then ((splitOnColon cmd).getD 1 ("")) else cmd
    args := args }

/-- The `fullCommand` template string used by both safety checks:
`command.command + " " + (command.args?.join(" ") || "")`. -/
def fullCommand (c : Command) : String :=
  c.command ++ " " ++ String.intercalate (" ") c.args

/-- Return type of both safety checks. -/
structure SafetyCheckResult where
  safe : Bool
  reason : Option String
deriving DecidableEq, Repr

/-- `TaskExecutor.checkSafety` (execution-flow.ts).  The awaited result of
`analyzeCommandIntent` is passed in as `intent`; the branch order follows the
source: forbidden classification, then under-declared danger, then the static
denylist. -/
def checkSafety (command : Command) (expectedLevel : SafetyLevel)
    (intent : CommandIntent) : SafetyCheckResult :=
  if intent.estimatedRisk = SafetyLevel.forbidden then
    { safe := false, reason := some ("Command is forbidden") }
  else if intent.estimatedRisk = SafetyLevel.danger ∧ expectedLevel ≠ SafetyLevel.danger then
    { safe := false, reason := some ("Command is too dangerous for the expected safety level") }
  else if matchesDangerousPattern (fullCommand command) then
    { safe := false, reason := some ("Command matches dangerous pattern") }
  else
    { safe := true, reason := none }

/-- `CommandExecutor.validateSafety`.  The awaited user confirmation for
`danger`-class commands is passed in as `confirmDangerous` (the source resolves
it to `false` after a 30 s timeout); the branch order follows the source:
static forbidden patterns first, then the LLM classification. -/
def validateSafety (command : Command) (intent : CommandIntent)
    (confirmDangerous : Bool) : SafetyCheckResult :=
  if matchesForbiddenPattern (fullCommand command) then
    { safe := false
      reason := some ("Command matches forbidden pattern - this could cause system damage") }
  else if intent.estimatedRisk = SafetyLevel.forbidden then
    { safe := false, reason := some ("Command classified as forbidden by safety analysis") }
  else if intent.estimatedRisk = SafetyLevel.danger ∧ ¬ confirmDangerous then
    { safe := false, reason := some ("Dangerous operation cancelled by user") }
  else
    { safe := true, reason := none }

/-! ### TaskPlanner (`planning/planner.ts`) -/

/-- `new Map(tasks.map(t => [t.id, t]))` followed by `.get`: on duplicate keys
the later entry wins, which the fold reproduces. -/
def taskLookup (tasks : List Task) (tid : String) : Option Task :=
  tasks.foldl (fun acc t => if t.id = tid then some t else acc) none

/-- The mutable closure state of `getExecutionOrder`: the `visited` set and the
`result` accumulator. -/
structure VisitState where
  visited : List String
  result : List Task
deriving DecidableEq, Repr

/-- The recursive `visit` closure of `TaskPlanner.getExecutionOrder`, with the
call made at each id of a worklist (the dependency list of the current task,
or the top-level task list).  The body follows the source line by line: an
already-visited id returns immediately; otherwise the id is added to `visited`,
an id absent from the task map contributes nothing further, and otherwise the
dependencies are visited before the task is appended to `result`.  The
structural `fuel` argument makes the recursion total; `standardFuel` below is
proven sufficient for every input, so the `none` (fuel exhausted) outcome is
unreachable from `getExecutionOrder`. -/
def visitIds (tm : String → Option Task) :
    Nat → List String → VisitState → Option VisitState
  | 0, _, _ => none
  | _ + 1, [], st => some st
  | f + 1, tid :: rest, st =>
      if tid ∈ st.visited then
        visitIds tm f rest st
      else
        match tm tid with
        | none => visitIds tm f rest { st with visited := tid :: st.visited }
        | some task =>
            match visitIds tm f task.dependencies
                { st with visited := tid :: st.visited } with
            | none => none
            | some st2 => visitIds tm f rest { st2 with result := st2.result ++ [task] }

/-- Weight of the not-yet-visited tasks: an upper bound on the work the DFS can
still perform. -/
def unvisitedWeight (tasks : List Task) (visited : List String) : Nat :=
  ((tasks.filter (fun t => !(visited.contains t.id))).map
    (fun t => 1 + t.dependencies.length)).sum

/-- Sufficient fuel for `visitIds` (and `hasCycleIds`) on `tasks`. -/
def standardFuel (tasks : List Task) : Nat :=
  tasks.length + unvisitedWeight tasks [] + 1

/-- `TaskPlanner.getExecutionOrder`: DFS postorder over the task list.  The
fallback `[]` branch is unreachable (fuel sufficiency is proven below). -/
def getExecutionOrder (tasks : List Task) : List Task :=
  match visitIds (taskLookup tasks) (standardFuel tasks)
      (tasks.map (fun t => t.id)) ⟨[], []⟩ with
  | some st => st.result
  | none => []

/-- The mutable state of `detectCycles`: the `visited` and `recursionStack`
sets of the source, plus `finished` -- the order in which calls return `false`
(in the source this is the set `visited` minus `recursionStack`; recording the
order is ancillary data used only by the proofs and does not influence the
returned boolean). -/
structure CycleState where
  visited : List String
  recStack : List String
  finished : List String
deriving DecidableEq, Repr

/-- The recursive `hasCycle` closure of `TaskPlanner.detectCycles`, inlined at
its call sites so that one function processes a worklist of ids (a dependency
list, or the top-level task-id list).  For each id: if unvisited, the source
calls `hasCycle` on it (add to `visited` and `recursionStack`, recurse into
its dependencies, then pop the stack); if visited and on the recursion stack,
a cycle is reported; otherwise the id is skipped.  At the top level the
recursion stack is empty, so the stack check coincides with the source's plain
`!visited.has(task.id)` guard.  Fuel as in `visitIds`. -/
def hasCycleIds (tm : String → Option Task) :
    Nat → List String → CycleState → Option (Bool × CycleState)
  | 0, _, _ => none
  | _ + 1, [], st => some (false, st)
  | f + 1, tid :: rest, st =>
      if tid ∈ st.visited then
        if tid ∈ st.recStack then some (true, st)
        else hasCycleIds tm f rest st
      else
        match tm tid with
        | none =>
            hasCycleIds tm f rest
              { st with
                visited := tid :: st.visited
                recStack := (tid :: st.recStack).erase tid
                finished := st.finished ++ [tid] }
        | some task =>
            match hasCycleIds tm f task.dependencies
                { st with
                  visited := tid :: st.visited
                  recStack := tid :: st.recStack } with
            | none => none
            | some (true, st2) => some (true, st2)
            | some (false, st2) =>
                hasCycleIds tm f rest
                  { st2 with
                    recStack := st2.recStack.erase tid
                    finished := st2.finished ++ [tid] }

/-- `TaskPlanner.detectCycles`.  The `none` fallback is unreachable (fuel
sufficiency is proven below); it is mapped to `true`, an arbitrary choice. -/
def detectCycles (tasks : List Task) : Bool :=
  match hasCycleIds (taskLookup tasks) (standardFuel tasks)
      (tasks.map (fun t => t.id)) ⟨[], [], []⟩ with
  | some (b, _) => b
  | none => true

/-- Per-task error messages of `TaskPlanner.validatePlan`, in source order:
missing name/description (JS falsiness of the empty string), then one error
per dangling dependency. -/
def taskErrors (taskIds : List String) (t : Task) : List String :=
  (if t.name = "" ∨ t.description = "" then
    ["Task " ++ t.id ++ " is missing required information"] else [])
  ++ t.dependencies.filterMap (fun d =>
      if taskIds.contains d then none
      else some ("Task " ++ t.id ++ " has invalid dependency: " ++ d))

/-- Per-task warnings of `validatePlan`.  `!task.estimatedDuration` is JS
falsiness: both `undefined` and `0` warn. -/
def taskWarnings (t : Task) : List String :=
  (if t.estimatedDuration.getD 0 = 0 then
    ["Task " ++ t.id ++ " has no duration estimate"] else [])
  ++ (if 3600 < t.estimatedDuration.getD 0 then
    ["Task " ++ t.id ++ " has very long duration (>1 hour)"] else [])

/-- Per-task suggestions of `validatePlan`. -/
def taskSuggestions (t : Task) : List String :=
  if 3600 < t.estimatedDuration.getD 0 then
    ["Consider breaking down task " ++ t.id ++ " into smaller subtasks"] else []

/-- `TaskPlanner.validatePlan`: empty-plan check, per-task checks, cycle check;
`valid` iff no errors were pushed. -/
def validatePlan (plan : TaskPlan) : ValidationResult :=
  let emptyErr := if plan.tasks.isEmpty then ["Plan has no tasks"] else []
  let taskIds := plan.tasks.map (fun t => t.id)
  let perTask := (plan.tasks.map (taskErrors taskIds)).flatten
  let cycleErr := if detectCycles plan.tasks then ["Plan contains circular dependencies"] else []
  let errors := emptyErr ++ perTask ++ cycleErr
  { valid := errors.isEmpty
    errors := errors
    warnings := (plan.tasks.map taskWarnings).flatten
    suggestions := (plan.tasks.map taskSuggestions).flatten }

/-- The dependency edge relation of a task list: `depEdge tasks x y` holds when
some task with id `x` lists `y` among its dependencies. -/
def depEdge (tasks : List Task) (x y : String) : Prop :=
  ∃ t ∈ tasks, t.id = x ∧ y ∈ t.dependencies

/-- A task list is acyclic when no id reaches itself through a nonempty chain
of dependency edges. -/
def Acyclic (tasks : List Task) : Prop :=
  ∀ x, ¬ Relation.TransGen (depEdge tasks) x x

/-! ### TaskManager (`planning/task-manager.ts`) -/

/-- Status field of `ExecutionResult`: `success | failure | partial`. -/
inductive ResultStatus where
  | success | failure | partialRes
deriving DecidableEq, Repr

/-- Values produced by the step execution paths of `TaskExecutor.executeStep`. -/
inductive StepValue where
  | simulated (description : String)
  | shellOutput (stdout stderr : String)
  | fileOutput (payload : String)
  | internalDone (command : String) (args : List String)
deriving DecidableEq, Repr

/-- The (untyped in TS) `output` field of an `ExecutionResult`. -/
inductive OutputValue where
  | stepResults (vs : List StepValue)
  | skipped (reason : Option String)
  | simulatedTask (name : String)
deriving DecidableEq, Repr

/-- Interface `ExecutionResult` (`planning/interfaces.ts`); the wall-clock
`duration`/`executedAt` fields and the log list are not modelled, and the
`error : Error` object is represented by its message. -/
structure ExecutionResult where
  taskId : String
  status : ResultStatus
  output : Option OutputValue
  error : Option String
deriving DecidableEq, Repr

/-- Lookup in a JS `Map` modelled as an insertion-ordered association list. -/
def mapGet (m : List (String × α)) (k : String) : Option α :=
  (m.find? (fun p => p.1 = k)).map (fun p => p.2)

/-- `Map.prototype.set`: overwrite in place if the key exists, else append. -/
def mapSet (m : List (String × α)) (k : String) (v : α) : List (String × α) :=
  if m.any (fun p => p.1 = k) then
    m.map (fun p => if p.1 = k then (k, v) else p)
  else m ++ [(k, v)]

/-- The private state of `TaskManager`: the three id-keyed maps and
`activeTaskId`. -/
structure TaskManagerState where
  plans : List (String × TaskPlan)
  tasks : List (String × Task)
  results : List (String × ExecutionResult)
  activeTaskId : Option String
deriving DecidableEq, Repr

/-- In the source, a plan's `tasks` array and the `tasks` map hold the same
mutable objects, so assigning `task.status` is visible through both.  The pure
translation writes the updated task through to the map and to every registered
plan's array entry with the same id. -/
def writeTask (st : TaskManagerState) (task : Task) : TaskManagerState :=
  { st with
    tasks := mapSet st.tasks task.id task
    plans := st.plans.map (fun p =>
      (p.1, { p.2 with tasks := p.2.tasks.map (fun u => if u.id = task.id then task else u) })) }

/-- `TaskManager.registerPlan`. -/
def registerPlan (st : TaskManagerState) (plan : TaskPlan) : TaskManagerState :=
  { st with
    plans := mapSet st.plans plan.id plan
    tasks := plan.tasks.foldl (fun m t => mapSet m t.id t) st.tasks }

/-- `TaskManager.updateTaskStatus`. -/
def updateTaskStatus (st : TaskManagerState) (taskId : String) (status : TaskStatus) :
    TaskManagerState :=
  match mapGet st.tasks taskId with
  | none => st
  | some task =>
      if status = TaskStatus.executing then
        { writeTask st { task with status := status } with activeTaskId := some taskId }
      else if status = TaskStatus.completed ∨ status = TaskStatus.failed ∨
          status = TaskStatus.skipped then
        if (writeTask st { task with status := status }).activeTaskId = some taskId then
          { writeTask st { task with status := status } with activeTaskId := none }
        else writeTask st { task with status := status }
      else writeTask st { task with status := status }

/-- `TaskManager.recordResult`: store the result, then set the task's status to
`completed` on success and `failed` otherwise. -/
def recordResult (st : TaskManagerState) (result : ExecutionResult) : TaskManagerState :=
  match mapGet st.tasks result.taskId with
  | none => { st with results := mapSet st.results result.taskId result }
  | some task =>
      writeTask { st with results := mapSet st.results result.taskId result }
        { task with
          status := if result.status = ResultStatus.success then TaskStatus.completed
            else TaskStatus.failed }

/-- `TaskManager.getPlanTasks`. -/
def getPlanTasks (st : TaskManagerState) (planId : String) : List Task :=
  match mapGet st.plans planId with
  | none => []
  | some plan => plan.tasks

/-- One dependency's check inside `getNextPendingTask`: the dependency must be
present in the registry with status `completed` or `skipped` (a missing entry
is `undefined`, hence falsy). -/
def depDone (st : TaskManagerState) (depId : String) : Bool :=
  match mapGet st.tasks depId with
  | none => false
  | some depTask =>
      depTask.status = TaskStatus.completed || depTask.status = TaskStatus.skipped

/-- The `dependencies.every(...)` expression of `getNextPendingTask`. -/
def dependenciesCompleted (st : TaskManagerState) (task : Task) : Bool :=
  task.dependencies.all (depDone st)

/-- The scan loop of `TaskManager.getNextPendingTask`. -/
def getNextPendingTaskGo (st : TaskManagerState) : List Task → Option Task
  | [] => none
  | task :: rest =>
      if task.status ≠ TaskStatus.pending then getNextPendingTaskGo st rest
      else if task.dependencies.isEmpty then some task
      else if dependenciesCompleted st task then some task
      else getNextPendingTaskGo st rest

/-- `TaskManager.getNextPendingTask`. -/
def getNextPendingTask (st : TaskManagerState) (planId : String) : Option Task :=
  getNextPendingTaskGo st (getPlanTasks st planId)

/-- The predicate the scan of `getNextPendingTask` selects the first match of. -/
def readyTask (st : TaskManagerState) (task : Task) : Bool :=
  task.status = TaskStatus.pending &&
    (task.dependencies.isEmpty || dependenciesCompleted st task)

/-- The public methods defined by class `TaskManager` in
`planning/task-manager.ts`, in declaration order. -/
def taskManagerMethods : List String :=
  ["registerPlan", "approvePlan", "updateTaskStatus", "recordResult",
   "emitProgress", "getTask", "getPlan", "getActiveTask", "getPlanTasks",
   "getPlanProgress", "skipTask", "getNextPendingTask", "compilePlanResults",
   "clearPlan", "getAllPlans", "getActivePlans"]

/-- The method `ExecutionFlow.runDetailingPhase` invokes on its `TaskManager`
to register each assembled `DetailedTask` (`this.taskManager.addTask(task)`). -/
def detailingRegistrationMethod : String :=
  "addTask"

/-! ### TaskExecutor (`execution-flow.ts`, class `TaskExecutor`)

The asynchronous collaborators of `executeTask` are collected in an
environment indexed by the step position: the one-shot approval response
(`none` models the 30 second timeout), the LLM classification awaited by
`analyzeCommandIntent` (including its catch-all default), the outcome of the
spawned shell process or of the file-system call, and the step boundary at
which `abortController.signal.aborted` is first observed (`none` = never). -/

/-- Per-task execution environment. -/
structure ExecEnv where
  approval : Nat → Option Bool
  intent : Nat → CommandIntent
  shellOutcome : Nat → Except String StepValue
  fileOutcome : Nat → Except String StepValue
  abortedAt : Option Nat

/-- Is the abort signal observed at the check before step `i`?  Once observed
it stays observed. -/
def abortObserved (env : ExecEnv) (i : Nat) : Bool :=
  match env.abortedAt with
  | none => false
  | some k => k ≤ i

/-- The timeout (in milliseconds) of `TaskExecutor.requestApproval`. -/
def approvalTimeoutMs : Nat := 30000

/-- `TaskExecutor.requestApproval`: resolves with the one-shot response, or
with `false` when the `approvalTimeoutMs` timer fires first. -/
def requestApproval (response : Option Bool) : Bool :=
  response.getD false

/-- `TaskExecutor.executeFileOperation`: the four known operations defer to the
file system (outcome supplied by the environment); anything else throws. -/
def executeFileOperation (command : Command) (outcome : Except String StepValue) :
    Except String StepValue :=
  if command.command = "read" ∨ command.command = "write" ∨
      command.command = "delete" ∨ command.command = "exists" then outcome
  else Except.error ("Unknown file operation: " ++ command.command)

/-- `TaskExecutor.executeInternalCommand`: recorded as a no-op. -/
def executeInternalCommand (command : Command) : Except String StepValue :=
  Except.ok (StepValue.internalDone command.command command.args)

/-- `TaskExecutor.executeStep`.  A step without a command is simulated and
nothing else runs; otherwise the command is parsed, checked by `checkSafety`
(with the classification the environment supplies for this step), and
dispatched on its type -- the source dispatch is `shell`, else `file`, else
internal, so an `api:` command reaches `executeInternalCommand`. -/
def executeStep (env : ExecEnv) (i : Nat) (step : ExecutionStep) :
    Except String StepValue :=
  match step.command with
  | none => Except.ok (StepValue.simulated step.description)
  | some commandStr =>
      let command := parseCommand commandStr
      let safetyCheck := checkSafety command step.safetyLevel (env.intent i)
      if safetyCheck.safe = false then
        Except.error ("Safety check failed: " ++ safetyCheck.reason.getD "")
      else if command.type = CommandType.shell then env.shellOutcome i
      else if command.type = CommandType.file then
        executeFileOperation command (env.fileOutcome i)
      else executeInternalCommand command

/-- The step loop of `TaskExecutor.executeTask`, carrying the step index and
the `results` accumulator.  Each iteration first checks the abort signal, then
the approval gate (a denied or timed-out approval skips the step via
`continue`), then runs the step; a step error aborts the loop (after the
best-effort rollback, which only performs external effects and is therefore
not modelled) and is rethrown to the surrounding catch. -/
def runStepsFrom (env : ExecEnv) : Nat → List ExecutionStep → List StepValue →
    Except String (List StepValue)
  | _, [], acc => Except.ok acc
  | i, step :: rest, acc =>
      if abortObserved env i then Except.error ("Task execution aborted")
      else if step.requiresApproval && !(requestApproval (env.approval i)) then
        runStepsFrom env (i + 1) rest acc
      else
        match executeStep env i step with
        | Except.ok v => runStepsFrom env (i + 1) rest (acc ++ [v])
        | Except.error e => Except.error e

/-- `TaskExecutor.executeTask`: mark the task `executing`, run the step loop
inside try/catch, build a `success` result from the collected step values or a
`failure` result from the caught error, record it with the `TaskManager`, and
resolve with it (the function never rejects). -/
def executeTask (env : ExecEnv) (tm : TaskManagerState) (task : DetailedTask) :
    TaskManagerState × ExecutionResult :=
  let tm1 := updateTaskStatus tm task.id TaskStatus.executing
  match runStepsFrom env 0 task.steps [] with
  | Except.ok vs =>
      let result : ExecutionResult :=
        { taskId := task.id, status := ResultStatus.success
          output := some (OutputValue.stepResults vs), error := none }
      (recordResult tm1 result, result)
  | Except.error e =>
      let result : ExecutionResult :=
        { taskId := task.id, status := ResultStatus.failure
          output := none, error := some e }
      (recordResult tm1 result, result)

/-- A step "proceeds" when the loop passes it without throwing: it is skipped
at the approval gate, or its execution succeeds. -/
def stepProceeds (env : ExecEnv) (i : Nat) (step : ExecutionStep) : Bool :=
  (step.requiresApproval && !(requestApproval (env.approval i))) ||
    (executeStep env i step).isOk

/-- Two environments that may differ only in the execution oracles (LLM
classification, shell outcome, file outcome) of step `k`. -/
def ExecEnv.agreeExcept (env env' : ExecEnv) (k : Nat) : Prop :=
  env.approval = env'.approval ∧ env.abortedAt = env'.abortedAt ∧
    ∀ m, m ≠ k → env.intent m = env'.intent m ∧
      env.shellOutcome m = env'.shellOutcome m ∧ env.fileOutcome m = env'.fileOutcome m

/-! ### ExecutionFlow (`execution-flow.ts`, class `ExecutionFlow`) -/

/-- Interface `FlowOptions` with the constructor defaults. -/
structure FlowOptions where
  autoApprove : Bool := false
  verbose : Bool := true
  dryRun : Bool := false
  maxRetries : Nat := 3
  timeout : Nat := 300000
deriving DecidableEq, Repr

/-- The backoff delay of the retry loop: `await this.delay(1000 * retries)`. -/
def retryDelayMs (attempt : Nat) : Nat := 1000 * attempt

/-- The retry loop of `runExecutionPhase` around one task, generic in the
attempted action (which, mirroring the `try`, may throw).  The loop runs while
`retries < maxRetries`, breaking on a normal return; a throw increments
`retries` and rethrows once `retries >= maxRetries`.  The first component of a
normal return is `result` (`none` when the loop never ran, as with
`maxRetries = 0`); the second counts how many times the action was invoked. -/
def retryExecuteGo (act : Nat → Except String α) :
    Nat → Nat → Except String (Option α × Nat)
  | 0, retries => Except.ok (none, retries)
  | remaining + 1, retries =>
      match act retries with
      | Except.ok a => Except.ok (some a, retries + 1)
      | Except.error e =>
          if remaining = 0 then Except.error e
          else retryExecuteGo act remaining (retries + 1)

/-- `ExecutionFlow.simulateExecution` (the `dryRun` substitute). -/
def simulateExecution (task : DetailedTask) : ExecutionResult :=
  { taskId := task.id, status := ResultStatus.success
    output := some (OutputValue.simulatedTask task.name), error := none }

/-- Flow-level environment for the execution phase: the per-task execution
environments (indexed by position in the execution order) and the value of the
`state.aborted` flag observed at the check before each task. -/
structure FlowEnv where
  taskEnv : Nat → ExecEnv
  abortedBefore : Nat → Bool

/-- The task loop of `ExecutionFlow.runExecutionPhase`, starting at position
`i` of the execution order with task-manager state `tm` and the accumulated
`state.results`.  Per task: abort check (throwing fails the phase), lookup of
the detailed task, the retry loop around `executor.executeTask` (or
`simulateExecution` under `dryRun`), and accumulation of the result when the
loop produced one.  `waitForResume` merely blocks and is not modelled. -/
def runExecutionTasksGo (opts : FlowOptions) (fenv : FlowEnv)
    (detailedTasks : List DetailedTask) :
    Nat → List Task → TaskManagerState → List ExecutionResult →
    TaskManagerState × List ExecutionResult × Except String Unit
  | _, [], tm, results => (tm, results, Except.ok ())
  | i, task :: rest, tm, results =>
      if fenv.abortedBefore i then (tm, results, Except.error ("Flow aborted by user"))
      else
        match detailedTasks.find? (fun dt => dt.id = task.id) with
        | none => (tm, results, Except.error ("Detailed task not found for " ++ task.id))
        | some detailedTask =>
            let act : Nat → Except String (TaskManagerState × ExecutionResult) :=
              fun _ =>
                if opts.dryRun then Except.ok (tm, simulateExecution detailedTask)
                else Except.ok (executeTask (fenv.taskEnv i) tm detailedTask)
            match retryExecuteGo act opts.maxRetries 0 with
            | Except.error e => (tm, results, Except.error e)
            | Except.ok (none, _) =>
                runExecutionTasksGo opts fenv detailedTasks (i + 1) rest tm results
            | Except.ok (some (tm2, result), _) =>
                runExecutionTasksGo opts fenv detailedTasks (i + 1) rest tm2
                  (results ++ [result])

/-- The fields of the JSON object `createDetailedTask` asks the LLM for; each
is optional because `parseJSONResponse` falls back to `{}`. -/
structure ParsedStep where
  description : String
  command : Option String
  requiresApproval : Bool
  safetyLevel : SafetyLevel
deriving DecidableEq, Repr

/-- Parsed detailing response. -/
structure ParsedDetail where
  steps : Option (List ParsedStep)
  resources : Option (List ResourceRequirement)
  risks : Option (List Risk)
deriving DecidableEq, Repr

/-- `ExecutionFlow.createDetailedTask`: the awaited chat round-trip is passed
in as `chatOutcome`.  On success the steps get generated ids
`taskId-step-i` and missing arrays default to `[]`; if the chat call throws,
the catch returns the minimal detailed task with empty steps, resources and
risks (and no rollback strategy). -/
def createDetailedTask (task : Task) (chatOutcome : Except String ParsedDetail) :
    DetailedTask :=
  match chatOutcome with
  | Except.ok data =>
      { id := task.id, parentId := task.id, order := 0, name := task.name
        description := task.description, priority := task.priority
        status := task.status, estimatedDuration := task.estimatedDuration
        dependencies := task.dependencies
        steps := ((data.steps.getD []).enum.map (fun p =>
          { id := task.id ++ "-step-" ++ toString p.1
            description := p.2.description, command := p.2.command
            requiresApproval := p.2.requiresApproval
            safetyLevel := p.2.safetyLevel }))
        resources := data.resources.getD []
        risks := data.risks.getD []
        rollbackStrategy := some { steps := [], automatic := false } }
  | Except.error _ =>
      { id := task.id, parentId := task.id, order := 0, name := task.name
        description := task.description, priority := task.priority
        status := task.status, estimatedDuration := task.estimatedDuration
        dependencies := task.dependencies
        steps := [], resources := [], risks := [], rollbackStrategy := none }

/-! ### Concrete fixtures

Closed example inputs used by witnesses and counterexamples. -/

/-- An empty task-manager state. -/
def emptyTM : TaskManagerState := ⟨[], [], [], none⟩

/-- The catch-all default classification of `analyzeCommandIntent`. -/
def fixIntent : CommandIntent :=
  ⟨"Unknown command", IntentCategory.execute, [], SafetyLevel.caution⟩

/-- A quiescent environment: approvals time out, the classifier returns the
default, external actions fail, no abort. -/
def fixEnv : ExecEnv :=
  { approval := fun _ => none
    intent := fun _ => fixIntent
    shellOutcome := fun _ => Except.error ("spawn failure")
    fileOutcome := fun _ => Except.error ("fs failure")
    abortedAt := none }

/-- The same environment with successful shell runs. -/
def fixEnvOk : ExecEnv :=
  { fixEnv with shellOutcome := fun _ => Except.ok (StepValue.shellOutput "hi" "") }

/-- The quiescent environment with the abort signal observed at step 0. -/
def envAbort0 : ExecEnv := { fixEnv with abortedAt := some 0 }

/-- Example task `A` (no dependencies). -/
def taskA : Task :=
  ⟨"A", "Task A", "first", TaskPriority.medium, TaskStatus.pending, none, []⟩

/-- Example task `B` (depends on `A`). -/
def taskB : Task :=
  ⟨"B", "Task B", "second", TaskPriority.medium, TaskStatus.pending, none, ["A"]⟩

/-- Task `A` already completed. -/
def taskADone : Task :=
  ⟨"A", "Task A", "first", TaskPriority.medium, TaskStatus.completed, none, []⟩

/-- A registry holding a plan with `A` completed and `B` pending on `A`. -/
def fixRegistry : TaskManagerState :=
  { plans := [("p", ⟨"p", "req", [taskADone, taskB], 0, false⟩)]
    tasks := [("A", taskADone), ("B", taskB)]
    results := []
    activeTaskId := none }

/-- A step with no command. -/
def stepPlain : ExecutionStep := ⟨"s0", "plain step", none, false, SafetyLevel.safe⟩

/-- An approval-gated step carrying a denylisted command. -/
def stepApproval : ExecutionStep :=
  ⟨"s1", "needs approval", some ("rm -rf /"), true, SafetyLevel.safe⟩

/-- A shell step (fails under `fixEnv`, succeeds under `fixEnvOk`). -/
def stepShell : ExecutionStep := ⟨"s2", "shell step", some ("echo hi"), false, SafetyLevel.safe⟩

/-- A detailed task with one command-less step. -/
def dtPlain : DetailedTask :=
  ⟨"T1", "T1", 0, "plain", "d", TaskPriority.medium, TaskStatus.pending, none, [],
    [stepPlain], [], [], none⟩

/-- A detailed task whose first step is approval-gated, second command-less. -/
def dtApproval : DetailedTask :=
  ⟨"T2", "T2", 0, "gated", "d", TaskPriority.medium, TaskStatus.pending, none, [],
    [stepApproval, stepPlain], [], [], none⟩

/-- A detailed task with one shell step. -/
def dtShell : DetailedTask :=
  ⟨"T3", "T3", 0, "shell", "d", TaskPriority.medium, TaskStatus.pending, none, [],
    [stepShell], [], [], none⟩

/-- A registry that holds `dtShell` as a registered pending task. -/
def fixRegistryShell : TaskManagerState :=
  { plans := []
    tasks := [("T3", ⟨"T3", "shell", "d", TaskPriority.medium, TaskStatus.pending, none, []⟩)]
    results := []
    activeTaskId := none }

/-- Detailed counterpart of `taskA` with one command-less step. -/
def dtA : DetailedTask :=
  ⟨"A", "A", 0, "Task A", "first", TaskPriority.medium, TaskStatus.pending, none, [],
    [stepPlain], [], [], none⟩

/-- Detailed counterpart of `taskB` with one command-less step. -/
def dtB : DetailedTask :=
  ⟨"B", "B", 0, "Task B", "second", TaskPriority.medium, TaskStatus.pending, none, ["A"],
    [stepPlain], [], [], none⟩

/-- Flow environment where the abort signal arrives during task 0 (observed at
its step boundary 0) and at every flow-level check from task 1 on. -/
def fenvAbort : FlowEnv :=
  { taskEnv := fun i => if i = 0 then envAbort0 else fixEnv
    abortedBefore := fun i => decide (1 ≤ i) }

/-- Flow environment where the abort signal arrives during the final step of
task 0: no step boundary of any task observes it (each task runs under the
quiescent `fixEnv`), and only the flow-level checks from task 1 on see the
aborted flag. -/
def fenvAbortLate : FlowEnv :=
  { taskEnv := fun _ => fixEnv
    abortedBefore := fun i => decide (1 ≤ i) }

/-- Task `A` of a two-cycle (depends on `B`). -/
def taskCycA : Task :=
  ⟨"A", "Task A", "first", TaskPriority.medium, TaskStatus.pending, none, ["B"]⟩

/-- Task `B` of a two-cycle (depends on `A`). -/
def taskCycB : Task :=
  ⟨"B", "Task B", "second", TaskPriority.medium, TaskStatus.pending, none, ["A"]⟩

/-- A plan whose dependency graph is the two-cycle `A -> B -> A`. -/
def cyclicPlan : TaskPlan := ⟨"p", "req", [taskCycA, taskCycB], 0, false⟩

/-! ### Specification predicates for the planner proofs -/

/-- Ids of a task list. -/
def idsOf (r : List Task) : List String :=
  r.map (fun t => t.id)

/-- A task list is topologically ordered when each element's dependencies all
occur strictly earlier in the list. -/
def topoOrdered (r : List Task) : Prop :=
  ∀ (i : Nat) (hi : i < r.length), ∀ d ∈ (r.get ⟨i, hi⟩).dependencies,
    d ∈ idsOf (r.take i)

/-- The invariant of the `getExecutionOrder` DFS relating the visited set, the
result accumulator and the ghost list `gray` of ids currently on the call
stack: visited is exactly result-ids plus gray, result ids are distinct and
disjoint from gray, every result entry is the registered task of its id, and
the accumulated result is topologically ordered. -/
def VisitInv (tasks : List Task) (st : VisitState) (gray : List String) : Prop :=
  (∀ x, x ∈ st.visited ↔ (x ∈ idsOf st.result ∨ x ∈ gray)) ∧
  (idsOf st.result).Nodup ∧
  (∀ x ∈ gray, x ∉ idsOf st.result) ∧
  (∀ t ∈ st.result, taskLookup tasks t.id = some t) ∧
  topoOrdered st.result

/-- The call-stack ids form a dependency chain: each entry depends on its
predecessor in the list (innermost first). -/
def grayChain (tasks : List Task) (gray : List String) : Prop :=
  List.Chain' (fun x y => depEdge tasks y x) gray

/-- Dependencies reachable from an id through the task map. -/
def idDeps (tasks : List Task) (x : String) : List String :=
  match taskLookup tasks x with
  | none => []
  | some t => t.dependencies

/-- A finish-order list for `detectCycles`: every id's dependencies occur
strictly earlier. -/
def finOrdered (tasks : List Task) (F : List String) : Prop :=
  ∀ (i : Nat) (hi : i < F.length), ∀ d ∈ idDeps tasks (F.get ⟨i, hi⟩),
    d ∈ F.take i

/-- The invariant of the `detectCycles` DFS: visited is exactly finished plus
the recursion stack, both without duplicates and disjoint, and the finish
order is dependency-ordered. -/
def CycleInv (tasks : List Task) (st : CycleState) : Prop :=
  (∀ x, x ∈ st.visited ↔ (x ∈ st.finished ∨ x ∈ st.recStack)) ∧
  st.finished.Nodup ∧
  st.recStack.Nodup ∧
  (∀ x ∈ st.recStack, x ∉ st.finished) ∧
  finOrdered tasks st.finished

/-! ## Theorems -/

/-! ### Claim C1: the static denylist overrides the classifier -/

/-- Claim C1: every parsed command whose full text matches the static
dangerous-pattern denylist is rejected by the safety check regardless of the
LLM classification: `TaskExecutor.checkSafety` returns unsafe for every
classification and every declared step level, `CommandExecutor.validateSafety`
returns unsafe for every classification and every confirmation outcome, and
the command `rm -rf /` matches both denylists. -/
theorem denylist_always_rejects :
    (∀ (cmd : Command) (lvl : SafetyLevel) (intent : CommandIntent),
      matchesDangerousPattern (fullCommand cmd) = true →
      (checkSafety cmd lvl intent).safe = false) ∧
    (∀ (cmd : Command) (intent : CommandIntent) (confirm : Bool),
      matchesForbiddenPattern (fullCommand cmd) = true →
      (validateSafety cmd intent confirm).safe = false) ∧
    matchesDangerousPattern (fullCommand (parseCommand ("rm -rf /"))) = true ∧
    matchesForbiddenPattern (fullCommand (parseCommand ("rm -rf /"))) = true := by
  refine ⟨?_, ?_, by decide, by decide⟩
  · intro cmd lvl intent h
    unfold checkSafety
    split_ifs <;> simp_all
  · intro cmd intent confirm h
    unfold validateSafety
    split_ifs
    simp_all

/-- Witness for C1: both safety checks reject the parsed command `rm -rf /`
even when the classifier reports it `safe`. -/
theorem denylist_always_rejects_witness :
    (checkSafety (parseCommand ("rm -rf /")) SafetyLevel.danger
      ⟨"p", IntentCategory.execute, [], SafetyLevel.safe⟩).safe = false ∧
    (validateSafety (parseCommand ("rm -rf /"))
      ⟨"p", IntentCategory.execute, [], SafetyLevel.safe⟩ true).safe = false :=
  ⟨denylist_always_rejects.1 _ _ _ (by decide),
   denylist_always_rejects.2.1 _ _ _ (by decide)⟩

/-! ### Claim C6: getNextPendingTask -/

/-- Unfolding of the per-dependency check. -/
theorem depDone_iff (st : TaskManagerState) (d : String) :
    depDone st d = true ↔
      ∃ dt, mapGet st.tasks d = some dt ∧
        (dt.status = TaskStatus.completed ∨ dt.status = TaskStatus.skipped) := by
  unfold depDone
  cases h : mapGet st.tasks d with
  | none => simp [h]
  | some dt =>
      simp only [h, Bool.or_eq_true, decide_eq_true_eq]
      constructor
      · intro hs
        exact ⟨dt, rfl, hs⟩
      · rintro ⟨dt', hdt', hs⟩
        cases hdt'
        exact hs

/-- The scan of `getNextPendingTask` is `List.find?` of `readyTask`. -/
theorem getNextPendingTaskGo_eq_find (st : TaskManagerState) :
    ∀ l : List Task, getNextPendingTaskGo st l = l.find? (readyTask st) := by
  intro l
  induction l with
  | nil => rfl
  | cons task rest ih =>
      unfold getNextPendingTaskGo
      rw [List.find?]
      by_cases hp : task.status = TaskStatus.pending
      · by_cases he : task.dependencies.isEmpty
        · simp [readyTask, hp, he]
        · by_cases hd : dependenciesCompleted st task
          · simp [readyTask, hp, he, hd]
          · simp only [readyTask, hp]
            simp [he, hd, ih]
      · simp [readyTask, hp, ih]

/-- Positional description of a successful `find?`. -/
theorem find?_decomp {p : α → Bool} :
    ∀ (l : List α) (a : α), l.find? p = some a →
      p a = true ∧ ∃ pre suf, l = pre ++ a :: suf ∧ ∀ u ∈ pre, p u = false := by
  intro l
  induction l with
  | nil => intro a h; cases h
  | cons x xs ih =>
      intro a h
      rw [List.find?] at h
      cases hx : p x with
      | true =>
          simp only [hx] at h
          cases h
          exact ⟨hx, [], xs, rfl, by intro u hu; cases hu⟩
      | false =>
          simp only [hx] at h
          obtain ⟨ha, pre, suf, hl, hpre⟩ := ih a h
          refine ⟨ha, x :: pre, suf, by rw [hl]; rfl, ?_⟩
          intro u hu
          rcases List.mem_cons.mp hu with h | h
          · subst h; exact hx
          · exact hpre u h

/-- Claim C6: `getNextPendingTask` returns the first task in plan order whose
status is `pending` and whose every dependency is registered with status
`completed` or `skipped` (a dependency missing from the registry blocks the
task), and returns `none` exactly when no such task exists. -/
theorem getNextPendingTask_spec (st : TaskManagerState) (planId : String) :
    (∀ t, getNextPendingTask st planId = some t →
      t.status = TaskStatus.pending ∧
      (∀ d ∈ t.dependencies, ∃ dt, mapGet st.tasks d = some dt ∧
        (dt.status = TaskStatus.completed ∨ dt.status = TaskStatus.skipped)) ∧
      ∃ pre suf, getPlanTasks st planId = pre ++ t :: suf ∧
        ∀ u ∈ pre, readyTask st u = false) ∧
    (getNextPendingTask st planId = none ↔
      ∀ t ∈ getPlanTasks st planId, readyTask st t = false) := by
  constructor
  · intro t h
    rw [getNextPendingTask, getNextPendingTaskGo_eq_find] at h
    obtain ⟨hready, pre, suf, hl, hpre⟩ := find?_decomp _ _ h
    rw [readyTask, Bool.and_eq_true, Bool.or_eq_true, decide_eq_true_eq] at hready
    obtain ⟨hstat, hdeps⟩ := hready
    refine ⟨hstat, ?_, pre, suf, hl, hpre⟩
    intro d hd
    rcases hdeps with he | hc
    · rw [List.isEmpty_iff] at he
      rw [he] at hd
      cases hd
    · rw [dependenciesCompleted, List.all_eq_true] at hc
      exact (depDone_iff st d).mp (hc d hd)
  · rw [getNextPendingTask, getNextPendingTaskGo_eq_find]
    rw [List.find?_eq_none]
    constructor
    · intro h t ht
      exact Bool.eq_false_iff.mpr (h t ht)
    · intro h t ht
      exact Bool.eq_false_iff.mp (h t ht)

/-- Witness for C6: in `fixRegistry` (task `A` completed, `B` pending on `A`)
the scheduler selects `B`, whose dependency `A` is completed, and no earlier
plan entry was ready. -/
theorem getNextPendingTask_spec_witness :
    taskB.status = TaskStatus.pending ∧
    (∀ d ∈ taskB.dependencies, ∃ dt, mapGet fixRegistry.tasks d = some dt ∧
      (dt.status = TaskStatus.completed ∨ dt.status = TaskStatus.skipped)) ∧
    ∃ pre suf, getPlanTasks fixRegistry ("p") = pre ++ taskB :: suf ∧
      ∀ u ∈ pre, readyTask fixRegistry u = false :=
  (getNextPendingTask_spec fixRegistry ("p")).1 taskB (by decide)

/-! ### Claim C7: detailing-phase registration -/

/-- Claim C7 (code bug): a decomposition/detailing error is indeed not fatal --
`createDetailedTask` falls back to a `DetailedTask` with empty steps, resources
and risks -- but the subsequent registration cannot succeed: the detailing
phase calls `this.taskManager.addTask(task)` and class `TaskManager` defines no
method of that name. -/
theorem createDetailedTask_fallback_addTask_missing :
    (∀ (task : Task) (e : String),
      (createDetailedTask task (Except.error e)).steps = [] ∧
      (createDetailedTask task (Except.error e)).resources = [] ∧
      (createDetailedTask task (Except.error e)).risks = []) ∧
    detailingRegistrationMethod ∉ taskManagerMethods := by
  refine ⟨?_, by decide⟩
  intro task e
  exact ⟨rfl, rfl, rfl⟩

/-! ### Executor lemmas -/

/-- Success of an `Except` is existence of an `ok` value. -/
theorem except_isOk_iff {ε α : Type} (e : Except ε α) :
    e.isOk = true ↔ ∃ a, e = Except.ok a := by
  cases e <;> simp [Except.isOk, Except.toBool]

/-- When every step proceeds (is skipped at the approval gate or succeeds) and
no abort is observed, the step loop returns normally. -/
theorem runStepsFrom_ok_of_proceeds (env : ExecEnv) (hab : env.abortedAt = none) :
    ∀ (steps : List ExecutionStep) (i : Nat) (acc : List StepValue),
      (∀ (m : Nat) (hm : m < steps.length),
        stepProceeds env (i + m) (steps.get ⟨m, hm⟩) = true) →
      ∃ vs, runStepsFrom env i steps acc = Except.ok vs := by
  intro steps
  induction steps with
  | nil => intro i acc _; exact ⟨acc, rfl⟩
  | cons step rest ih =>
      intro i acc h
      have habort : abortObserved env i = false := by simp [abortObserved, hab]
      have h0 : stepProceeds env i step = true := by
        have h' := h 0 (by simp)
        simpa using h'
      have hshift : ∀ (m : Nat) (hm : m < rest.length),
          stepProceeds env (i + 1 + m) (rest.get ⟨m, hm⟩) = true := by
        intro m hm
        have h' := h (m + 1) (by simpa using Nat.succ_lt_succ hm)
        have harith : i + (m + 1) = i + 1 + m := by omega
        rw [harith] at h'
        exact h'
      rw [stepProceeds, Bool.or_eq_true] at h0
      simp only [runStepsFrom, habort, Bool.false_eq_true, if_false]
      cases hskip : (step.requiresApproval && !(requestApproval (env.approval i))) with
      | true =>
          simp only [hskip, if_true]
          exact ih (i + 1) acc hshift
      | false =>
          rw [hskip] at h0
          have hok : (executeStep env i step).isOk = true := by
            rcases h0 with hl | hr
            · cases hl
            · exact hr
          obtain ⟨v, hv⟩ := (except_isOk_iff _).mp hok
          simp only [hskip, Bool.false_eq_true, if_false, hv]
          exact ih (i + 1) (acc ++ [v]) hshift

/-- When the abort signal is observed at step boundary `j` (within range) and
every earlier step proceeds, the loop throws the abort error. -/
theorem runStepsFrom_abort (env : ExecEnv) (j : Nat) (hj : env.abortedAt = some j) :
    ∀ (steps : List ExecutionStep) (i : Nat) (acc : List StepValue),
      i ≤ j → j - i < steps.length →
      (∀ (m : Nat) (hm : m < steps.length), i + m < j →
        stepProceeds env (i + m) (steps.get ⟨m, hm⟩) = true) →
      runStepsFrom env i steps acc = Except.error ("Task execution aborted") := by
  intro steps
  induction steps with
  | nil => intro i acc _ hrange _; simp at hrange
  | cons step rest ih =>
      intro i acc hij hrange h
      by_cases hji : j ≤ i
      · have : abortObserved env i = true := by
          simp [abortObserved, hj, hji]
        simp [runStepsFrom, this]
      · have hlt : i < j := by omega
        have habort : abortObserved env i = false := by
          simp [abortObserved, hj]; omega
        have h0 : stepProceeds env i step = true := by
          have h' := h 0 (by simp) (by omega)
          simpa using h'
        have hshift : ∀ (m : Nat) (hm : m < rest.length), i + 1 + m < j →
            stepProceeds env (i + 1 + m) (rest.get ⟨m, hm⟩) = true := by
          intro m hm hmj
          have harith : i + (m + 1) = i + 1 + m := by omega
          have h' := h (m + 1) (by simpa using Nat.succ_lt_succ hm) (by omega)
          rw [harith] at h'
          exact h'
        rw [stepProceeds, Bool.or_eq_true] at h0
        simp only [runStepsFrom, habort, Bool.false_eq_true, if_false]
        cases hskip : (step.requiresApproval && !(requestApproval (env.approval i))) with
        | true =>
            simp only [hskip, if_true]
            exact ih (i + 1) acc (by omega) (by simp at hrange; omega) hshift
        | false =>
            rw [hskip] at h0
            have hok : (executeStep env i step).isOk = true := by
              rcases h0 with hl | hr
              · cases hl
              · exact hr
            obtain ⟨v, hv⟩ := (except_isOk_iff _).mp hok
            simp only [hskip, Bool.false_eq_true, if_false, hv]
            exact ih (i + 1) (acc ++ [v]) (by omega) (by simp at hrange; omega) hshift

/-- `executeStep` consults only the position-`i` oracles. -/
theorem executeStep_congr (env env' : ExecEnv) (i : Nat) (step : ExecutionStep)
    (hi : env.intent i = env'.intent i) (hs : env.shellOutcome i = env'.shellOutcome i)
    (hf : env.fileOutcome i = env'.fileOutcome i) :
    executeStep env i step = executeStep env' i step := by
  unfold executeStep
  cases step.command with
  | none => rfl
  | some commandStr => rw [hi, hs, hf]

/-- The step loop never consults the execution oracles of a step that is
skipped at the approval gate: two environments agreeing outside position `k`
produce the same outcome, provided the step at absolute position `k` (if
reached) is approval-skipped. -/
theorem runStepsFrom_congr_skipped (env env' : ExecEnv) (k : Nat)
    (hagree : env.agreeExcept env' k) :
    ∀ (steps : List ExecutionStep) (i : Nat) (acc : List StepValue),
      (∀ (m : Nat) (hm : m < steps.length), i + m = k →
        (steps.get ⟨m, hm⟩).requiresApproval = true ∧
          requestApproval (env.approval k) = false) →
      runStepsFrom env i steps acc = runStepsFrom env' i steps acc := by
  obtain ⟨happr, habort, hrest⟩ := hagree
  intro steps
  induction steps with
  | nil => intro i acc _; rfl
  | cons step rest ih =>
      intro i acc h
      have hobs : abortObserved env i = abortObserved env' i := by
        rw [abortObserved, abortObserved, habort]
      have hshift : ∀ (m : Nat) (hm : m < rest.length), i + 1 + m = k →
          (rest.get ⟨m, hm⟩).requiresApproval = true ∧
            requestApproval (env.approval k) = false := by
        intro m hm hmk
        have h' := h (m + 1) (by simpa using Nat.succ_lt_succ hm) (by omega)
        exact h'
      simp only [runStepsFrom, hobs]
      cases hob : abortObserved env' i with
      | true => simp
      | false =>
          simp only [Bool.false_eq_true, if_false]
          rw [happr]
          cases hskip : (step.requiresApproval && !(requestApproval (env'.approval i))) with
          | true =>
              simp only [if_true]
              exact ih (i + 1) acc hshift
          | false =>
              simp only [Bool.false_eq_true, if_false]
              have hstep : executeStep env i step = executeStep env' i step := by
                by_cases hik : i = k
                · exfalso
                  obtain ⟨hreq, hden⟩ := h 0 (by simp) (by omega)
                  have : (step.requiresApproval && !(requestApproval (env'.approval i))) = true := by
                    have hr : step.requiresApproval = true := by simpa using hreq
                    rw [hr, Bool.true_and, ← happr, hik, hden]
                    rfl
                  rw [this] at hskip
                  cases hskip
                · obtain ⟨h1, h2, h3⟩ := hrest i hik
                  exact executeStep_congr env env' i step h1 h2 h3
              rw [hstep]
              cases hv : executeStep env' i step with
              | ok v => exact ih (i + 1) (acc ++ [v]) hshift
              | error e => rfl

/-- Updating an existing key. -/
theorem mapGet_replace {α : Type} (k : String) (v : α) :
    ∀ (m : List (String × α)), m.any (fun p => p.1 = k) = true →
      mapGet (m.map (fun p => if p.1 = k then (k, v) else p)) k = some v := by
  intro m
  induction m with
  | nil => intro h; cases h
  | cons p rest ih =>
      intro h
      by_cases hp : p.1 = k
      · simp [mapGet, List.find?, hp]
      · have hrest : rest.any (fun p => p.1 = k) = true := by
          simp only [List.any_cons, Bool.or_eq_true, decide_eq_true_eq] at h
          rcases h with h | h
          · exact absurd h hp
          · exact h
        simp only [List.map_cons, if_neg hp]
        have hstep : mapGet (p :: rest.map (fun p => if p.1 = k then (k, v) else p)) k =
            mapGet (rest.map (fun p => if p.1 = k then (k, v) else p)) k := by
          unfold mapGet
          rw [List.find?]
          simp [hp]
        rw [hstep]
        exact ih hrest

/-- Appending a fresh key. -/
theorem mapGet_append {α : Type} (k : String) (v : α) :
    ∀ (m : List (String × α)), m.any (fun p => p.1 = k) = false →
      mapGet (m ++ [(k, v)]) k = some v := by
  intro m
  induction m with
  | nil => intro _; simp [mapGet, List.find?]
  | cons p rest ih =>
      intro h
      simp only [List.any_cons, Bool.or_eq_false_iff, decide_eq_false_iff_not] at h
      obtain ⟨hp, hrest⟩ := h
      have hstep : mapGet ((p :: rest) ++ [(k, v)]) k = mapGet (rest ++ [(k, v)]) k := by
        unfold mapGet
        rw [List.cons_append, List.find?]
        simp [hp]
      rw [hstep]
      exact ih (by simpa using hrest)

/-- `Map.set` followed by `Map.get` at the same key. -/
theorem mapGet_mapSet_self {α : Type} (m : List (String × α)) (k : String) (v : α) :
    mapGet (mapSet m k v) k = some v := by
  unfold mapSet
  cases h : m.any (fun p => p.1 = k) with
  | true => simp only [if_true]; exact mapGet_replace k v m h
  | false => simp only [Bool.false_eq_true, if_false]; exact mapGet_append k v m h

/-- `recordResult` stores the result in the `results` map. -/
theorem recordResult_results (st : TaskManagerState) (r : ExecutionResult) :
    (recordResult st r).results = mapSet st.results r.taskId r := by
  unfold recordResult
  cases h : mapGet st.tasks r.taskId with
  | none => simp [h]
  | some task => simp [h, writeTask]

/-- `updateTaskStatus` rewrites the registered task's status (for a registry
entry whose stored id matches its key). -/
theorem updateTaskStatus_get (tm : TaskManagerState) (taskId : String)
    (status : TaskStatus) (t0 : Task) (h : mapGet tm.tasks taskId = some t0)
    (hid : t0.id = taskId) :
    mapGet (updateTaskStatus tm taskId status).tasks taskId =
      some { t0 with status := status } := by
  unfold updateTaskStatus
  simp only [h]
  have hw : mapGet (writeTask tm { t0 with status := status }).tasks taskId =
      some { t0 with status := status } := by
    unfold writeTask
    show mapGet (mapSet tm.tasks ({ t0 with status := status } : Task).id
      { t0 with status := status }) taskId = _
    have hid2 : ({ t0 with status := status } : Task).id = taskId := hid
    rw [hid2]
    exact mapGet_mapSet_self _ _ _
  split_ifs <;> exact hw

/-- `recordResult` marks the registered task `completed` on success and
`failed` otherwise. -/
theorem recordResult_get_tasks (st : TaskManagerState) (r : ExecutionResult)
    (t1 : Task) (h : mapGet st.tasks r.taskId = some t1) (hid : t1.id = r.taskId) :
    mapGet (recordResult st r).tasks r.taskId =
      some { t1 with status :=
        if r.status = ResultStatus.success then TaskStatus.completed
        else TaskStatus.failed } := by
  unfold recordResult
  simp only [h]
  unfold writeTask
  show mapGet (mapSet ({ st with results := mapSet st.results r.taskId r }).tasks
      ({ t1 with status :=
        if r.status = ResultStatus.success then TaskStatus.completed
        else TaskStatus.failed } : Task).id
      { t1 with status :=
        if r.status = ResultStatus.success then TaskStatus.completed
        else TaskStatus.failed }) r.taskId = _
  have hid2 : ({ t1 with status :=
      if r.status = ResultStatus.success then TaskStatus.completed
      else TaskStatus.failed } : Task).id = r.taskId := hid
  rw [hid2]
  exact mapGet_mapSet_self _ _ _

/-! ### Claim C9: executeTask is total over its error cases -/

/-- Claim C9: for every task and every environment (including throwing steps,
safety rejections and aborts), `executeTask` resolves with a result whose
status is `success` or `failure` (never `partial`, never a rejection), records
that result with the `TaskManager`, and captures a thrown step error in the
result's `error` field. -/
theorem executeTask_total_records (env : ExecEnv) (tm : TaskManagerState)
    (task : DetailedTask) :
    ((executeTask env tm task).2.status = ResultStatus.success ∨
      (executeTask env tm task).2.status = ResultStatus.failure) ∧
    (executeTask env tm task).2.taskId = task.id ∧
    mapGet (executeTask env tm task).1.results task.id = some (executeTask env tm task).2 ∧
    (∀ e, runStepsFrom env 0 task.steps [] = Except.error e →
      (executeTask env tm task).2.status = ResultStatus.failure ∧
      (executeTask env tm task).2.error = some e) ∧
    (∀ vs, runStepsFrom env 0 task.steps [] = Except.ok vs →
      (executeTask env tm task).2.status = ResultStatus.success ∧
      (executeTask env tm task).2.output = some (OutputValue.stepResults vs)) := by
  unfold executeTask
  cases h : runStepsFrom env 0 task.steps [] with
  | ok vs =>
      refine ⟨Or.inl rfl, rfl, ?_, ?_, ?_⟩
      · rw [recordResult_results]
        exact mapGet_mapSet_self _ _ _
      · intro e he; exact Except.noConfusion he
      · intro vs' hvs
        cases Except.ok.inj hvs
        exact ⟨rfl, rfl⟩
  | error e =>
      refine ⟨Or.inr rfl, rfl, ?_, ?_, ?_⟩
      · rw [recordResult_results]
        exact mapGet_mapSet_self _ _ _
      · intro e' he
        cases Except.error.inj he
        exact ⟨rfl, rfl⟩
      · intro vs hvs; exact Except.noConfusion hvs

/-- Witness for C9 at a task whose shell step fails: the result is a recorded
failure carrying the spawn error. -/
theorem executeTask_total_records_witness :
    (executeTask fixEnv emptyTM dtShell).2.status = ResultStatus.failure ∧
    (executeTask fixEnv emptyTM dtShell).2.error = some ("spawn failure") :=
  (executeTask_total_records fixEnv emptyTM dtShell).2.2.2.1 ("spawn failure") (by rfl)

/-! ### Claim C10: command-less steps are simulated -/

/-- Claim C10 (amended): a step without a command is simulated -- no parsing,
no safety check, no external action influences it -- and a task all of whose
steps lack commands yields a `success` result provided the abort signal is not
observed during its execution (the original claim omitted the abort proviso;
see the counterexample). -/
theorem commandless_steps_simulated :
    (∀ (env : ExecEnv) (i : Nat) (step : ExecutionStep), step.command = none →
      executeStep env i step = Except.ok (StepValue.simulated step.description)) ∧
    (∀ (env env' : ExecEnv) (i : Nat) (step : ExecutionStep), step.command = none →
      executeStep env i step = executeStep env' i step) ∧
    (∀ (env : ExecEnv) (tm : TaskManagerState) (task : DetailedTask),
      env.abortedAt = none → (∀ s ∈ task.steps, s.command = none) →
      (executeTask env tm task).2.status = ResultStatus.success) := by
  have hstep : ∀ (env : ExecEnv) (i : Nat) (step : ExecutionStep), step.command = none →
      executeStep env i step = Except.ok (StepValue.simulated step.description) := by
    intro env i step h
    unfold executeStep
    rw [h]
  refine ⟨hstep, ?_, ?_⟩
  · intro env env' i step h
    rw [hstep env i step h, hstep env' i step h]
  · intro env tm task hab hall
    obtain ⟨vs, hvs⟩ := runStepsFrom_ok_of_proceeds env hab task.steps 0 []
      (by
        intro m hm
        rw [stepProceeds]
        have hc := hall (task.steps.get ⟨m, hm⟩) (task.steps.get_mem _ _)
        rw [hstep env (0 + m) _ hc]
        simp [Except.isOk, Except.toBool])
    unfold executeTask
    rw [hvs]

/-- Counterexample to claim C10 as stated: a task whose only step lacks a
command nevertheless yields a `failure` result when the abort signal is
observed at the first step boundary, so such a task does not "always" succeed. -/
theorem commandless_task_abort_counterexample :
    (∀ s ∈ dtPlain.steps, s.command = none) ∧
    (executeTask envAbort0 emptyTM dtPlain).2.status = ResultStatus.failure :=
  ⟨by decide, rfl⟩

/-- Witness for C10 at a task with one command-less step in the quiescent
environment. -/
theorem commandless_steps_simulated_witness :
    (executeTask fixEnv emptyTM dtPlain).2.status = ResultStatus.success :=
  commandless_steps_simulated.2.2 fixEnv emptyTM dtPlain (by rfl) (by decide)

/-! ### Claim C5: approval timeout skips the step -/

/-- Claim C5 (amended): an approval request with no response resolves to
denied after the 30 second timeout; the gated step is then skipped -- its
execution oracles are never consulted -- and the task still succeeds provided
every other step proceeds and the task is not aborted (the original claim
omitted the abort proviso; see the counterexample). -/
theorem approval_timeout_skips_step :
    approvalTimeoutMs = 30000 ∧ requestApproval none = false ∧
    ∀ (env : ExecEnv) (tm : TaskManagerState) (task : DetailedTask) (k : Nat)
      (hk : k < task.steps.length),
      env.abortedAt = none →
      (task.steps.get ⟨k, hk⟩).requiresApproval = true →
      env.approval k = none →
      (∀ (m : Nat) (hm : m < task.steps.length), m ≠ k →
        stepProceeds env m (task.steps.get ⟨m, hm⟩) = true) →
      (executeTask env tm task).2.status = ResultStatus.success ∧
      ∀ env', env.agreeExcept env' k → executeTask env tm task = executeTask env' tm task := by
  refine ⟨rfl, rfl, ?_⟩
  intro env tm task k hk hab hreq happk hothers
  have hall : ∀ (m : Nat) (hm : m < task.steps.length),
      stepProceeds env (0 + m) (task.steps.get ⟨m, hm⟩) = true := by
    intro m hm
    rw [Nat.zero_add]
    by_cases hmk : m = k
    · subst hmk
      rw [stepProceeds]
      have hg : task.steps.get ⟨m, hm⟩ = task.steps.get ⟨m, hk⟩ := rfl
      rw [hg, hreq, happk]
      rfl
    · exact hothers m hm hmk
  obtain ⟨vs, hvs⟩ := runStepsFrom_ok_of_proceeds env hab task.steps 0 [] hall
  constructor
  · unfold executeTask
    rw [hvs]
  · intro env' hag
    have hcong := runStepsFrom_congr_skipped env env' k hag task.steps 0 []
      (by
        intro m hm hmk
        rw [Nat.zero_add] at hmk
        subst hmk
        have hg : task.steps.get ⟨m, hm⟩ = task.steps.get ⟨m, hk⟩ := rfl
        refine ⟨by rw [hg]; exact hreq, ?_⟩
        rw [happk]
        rfl)
    unfold executeTask
    rw [hcong]

/-- Counterexample to claim C5 as stated: with the abort signal observed, a
task whose only approval-gated step times out reports `failure`, not
`success`, although no other step throws. -/
theorem approval_timeout_abort_counterexample :
    (dtApproval.steps.get ⟨0, by decide⟩).requiresApproval = true ∧
    envAbort0.approval 0 = none ∧
    (executeTask envAbort0 emptyTM dtApproval).2.status = ResultStatus.failure :=
  ⟨rfl, rfl, rfl⟩

/-- Witness for C5: the gated first step of `dtApproval` (which carries a
denylisted command) is skipped on approval timeout and the task succeeds. -/
theorem approval_timeout_skips_step_witness :
    (executeTask fixEnv emptyTM dtApproval).2.status = ResultStatus.success :=
  (approval_timeout_skips_step.2.2 fixEnv emptyTM dtApproval 0 (by decide)
    (by rfl) (by rfl) (by rfl) (by decide)).1

/-! ### Claim C3: step failures are not retried by the flow -/

/-- Claim C3 (amended): a step failure does not cause any re-execution.
`TaskExecutor.executeTask` captures the failure and resolves normally with a
`failure` result, so the flow's retry loop -- which only retries a thrown
exception -- breaks after a single invocation (returning attempt count 1 for
any positive `maxRetries`; the default is 3 and the backoff delay is
`1000 * attempt` ms), and the task is marked `failed` immediately after that
first attempt. -/
theorem step_failure_not_retried :
    (FlowOptions.maxRetries {} = 3) ∧ (∀ n, retryDelayMs n = 1000 * n) ∧
    ∀ (env : ExecEnv) (tm : TaskManagerState) (task : DetailedTask)
      (maxRetries : Nat) (e : String) (t0 : Task),
      0 < maxRetries →
      runStepsFrom env 0 task.steps [] = Except.error e →
      mapGet tm.tasks task.id = some t0 →
      t0.id = task.id →
      retryExecuteGo (fun _ => Except.ok (executeTask env tm task)) maxRetries 0 =
        Except.ok (some (executeTask env tm task), 1) ∧
      (executeTask env tm task).2.status = ResultStatus.failure ∧
      mapGet (executeTask env tm task).1.tasks task.id =
        some { t0 with status := TaskStatus.failed } := by
  refine ⟨rfl, fun n => rfl, ?_⟩
  intro env tm task maxRetries e t0 hmax herr hget hid
  refine ⟨?_, ?_, ?_⟩
  · cases maxRetries with
    | zero => omega
    | succ m => rfl
  · unfold executeTask
    rw [herr]
  · unfold executeTask
    rw [herr]
    have h1 : mapGet (updateTaskStatus tm task.id TaskStatus.executing).tasks task.id =
        some { t0 with status := TaskStatus.executing } :=
      updateTaskStatus_get tm task.id TaskStatus.executing t0 hget hid
    have h2 := recordResult_get_tasks (updateTaskStatus tm task.id TaskStatus.executing)
      { taskId := task.id, status := ResultStatus.failure, output := none, error := some e }
      { t0 with status := TaskStatus.executing } h1 hid
    simpa using h2

/-- Counterexample to claim C3 as stated: at the default `maxRetries = 3`, a
task whose shell step fails is executed exactly once (the retry loop returns
attempt count 1, not 3) and the task is marked `failed` after that single
attempt, not only after exhausting retries. -/
theorem step_failure_not_retried_counterexample :
    retryExecuteGo (fun _ => Except.ok (executeTask fixEnv fixRegistryShell dtShell))
        (FlowOptions.maxRetries {}) 0 =
      Except.ok (some (executeTask fixEnv fixRegistryShell dtShell), 1) ∧
    (executeTask fixEnv fixRegistryShell dtShell).2.status = ResultStatus.failure ∧
    mapGet (executeTask fixEnv fixRegistryShell dtShell).1.tasks ("T3") =
      some ⟨"T3", "shell", "d", TaskPriority.medium, TaskStatus.failed, none, []⟩ :=
  ⟨rfl, rfl, by decide⟩

/-- Witness for C3's amended statement at the concrete failing shell task. -/
theorem step_failure_not_retried_witness :
    retryExecuteGo (fun _ => Except.ok (executeTask fixEnv fixRegistryShell dtShell)) 3 0 =
      Except.ok (some (executeTask fixEnv fixRegistryShell dtShell), 1) ∧
    (executeTask fixEnv fixRegistryShell dtShell).2.status = ResultStatus.failure ∧
    mapGet (executeTask fixEnv fixRegistryShell dtShell).1.tasks ("T3") =
      some ⟨"T3", "shell", "d", TaskPriority.medium, TaskStatus.failed, none, []⟩ :=
  step_failure_not_retried.2.2 fixEnv fixRegistryShell dtShell 3 ("spawn failure")
    ⟨"T3", "shell", "d", TaskPriority.medium, TaskStatus.pending, none, []⟩
    (by decide) (by rfl) (by rfl) (by rfl)

/-! ### Claim C8: abort fails the current task and stops the phase -/

/-- A first attempt that returns normally ends the retry loop with one
invocation. -/
theorem retryExecuteGo_first_ok {α : Type} (act : Nat → Except String α) (a : α)
    (maxRetries : Nat) (hmax : 0 < maxRetries) (h : act 0 = Except.ok a) :
    retryExecuteGo act maxRetries 0 = Except.ok (some a, 1) := by
  cases maxRetries with
  | zero => omega
  | succ m => simp [retryExecuteGo, h]

/-- Processing a prefix of the execution order on which the flow-level abort
flag is never observed, every task has a registered detailed counterpart,
`dryRun` is off and `maxRetries` is positive, advances the loop to the suffix
while producing one result per prefix task. -/
theorem runExec_append (opts : FlowOptions) (fenv : FlowEnv) (dts : List DetailedTask)
    (hdry : opts.dryRun = false) (hmax : 0 < opts.maxRetries) :
    ∀ (pre suf : List Task) (i : Nat) (tm : TaskManagerState)
      (results : List ExecutionResult),
      (∀ (m : Nat), m < pre.length → fenv.abortedBefore (i + m) = false) →
      (∀ (m : Nat) (hm : m < pre.length),
        (dts.find? (fun dt => dt.id = (pre.get ⟨m, hm⟩).id)).isSome = true) →
      ∃ (tm2 : TaskManagerState) (newResults : List ExecutionResult),
        runExecutionTasksGo opts fenv dts i (pre ++ suf) tm results =
          runExecutionTasksGo opts fenv dts (i + pre.length) suf tm2
            (results ++ newResults) ∧
        newResults.length = pre.length := by
  intro pre
  induction pre with
  | nil =>
      intro suf i tm results _ _
      exact ⟨tm, [], by simp, rfl⟩
  | cons t rest ih =>
      intro suf i tm results hab hfind
      have hab0 : fenv.abortedBefore i = false := by
        have h0 := hab 0 (by simp)
        simpa using h0
      obtain ⟨dt, hdt⟩ : ∃ dt, dts.find? (fun d => d.id = t.id) = some dt := by
        have h0 := hfind 0 (by simp)
        cases hfd : dts.find? (fun d => d.id = t.id) with
        | none =>
            rw [show ((t :: rest).get ⟨0, by simp⟩) = t from rfl] at h0
            rw [hfd] at h0
            cases h0
        | some dt => exact ⟨dt, rfl⟩
      rcases hex : executeTask (fenv.taskEnv i) tm dt with ⟨tmx, rx⟩
      have hstep : runExecutionTasksGo opts fenv dts i ((t :: rest) ++ suf) tm results =
          runExecutionTasksGo opts fenv dts (i + 1) (rest ++ suf) tmx (results ++ [rx]) := by
        simp only [List.cons_append, runExecutionTasksGo, hab0, Bool.false_eq_true,
          if_false, hdt, hdry, hex]
        rw [retryExecuteGo_first_ok _ (tmx, rx) opts.maxRetries hmax rfl]
        rfl
      rw [hstep]
      obtain ⟨tm2, newResults, heq, hlen⟩ :=
        ih suf (i + 1) tmx (results ++ [rx])
          (by
            intro m hm
            have h' := hab (m + 1) (by simpa using Nat.succ_lt_succ hm)
            have harith : i + (m + 1) = i + 1 + m := by omega
            rw [harith] at h'
            exact h')
          (by
            intro m hm
            exact hfind (m + 1) (by simpa using Nat.succ_lt_succ hm))
      refine ⟨tm2, rx :: newResults, ?_, by simp [hlen]⟩
      rw [heq]
      have harith : i + 1 + rest.length = i + (rest.length + 1) := by omega
      rw [harith]
      have hres : results ++ [rx] ++ newResults = results ++ (rx :: newResults) := by
        simp
      rw [hres]
      rfl

/-- Claim C8 (amended: the abort signal must be observed at a step boundary of
the task -- a signal arriving during the task's final step is never observed
inside the task, which then completes normally, as the counterexample shows):
when the abort signal is observed at a step boundary of the currently
executing task, that task's result is a `failure` whose error message is
exactly "Task execution aborted" (which contains "aborted"), and the
execution phase, finding the flow's aborted flag set at its next check,
throws "Flow aborted by user" without starting any later task: the result
list ends with the aborted task's failure and has exactly one entry per
started task. -/
theorem abort_fails_current_task_and_stops :
    (∀ (env : ExecEnv) (tm : TaskManagerState) (task : DetailedTask) (j : Nat),
      env.abortedAt = some j → j < task.steps.length →
      (∀ (m : Nat) (hm : m < task.steps.length), m < j →
        stepProceeds env m (task.steps.get ⟨m, hm⟩) = true) →
      (executeTask env tm task).2.status = ResultStatus.failure ∧
      (executeTask env tm task).2.error = some ("Task execution aborted")) ∧
    List.IsInfix (("aborted").toList) (("Task execution aborted").toList) ∧
    ∀ (opts : FlowOptions) (fenv : FlowEnv) (dts : List DetailedTask)
      (order : List Task) (tm : TaskManagerState) (k j : Nat)
      (hk : k + 1 < order.length),
      opts.dryRun = false → 0 < opts.maxRetries →
      (∀ m, m ≤ k → fenv.abortedBefore m = false) →
      fenv.abortedBefore (k + 1) = true →
      (∀ (m : Nat) (hm : m < order.length), m ≤ k →
        (dts.find? (fun dt => dt.id = (order.get ⟨m, hm⟩).id)).isSome = true) →
      (fenv.taskEnv k).abortedAt = some j →
      (∀ dtk, dts.find? (fun dt => dt.id = (order.get ⟨k, by omega⟩).id) = some dtk →
        j < dtk.steps.length ∧
        ∀ (m : Nat) (hm : m < dtk.steps.length), m < j →
          stepProceeds (fenv.taskEnv k) m (dtk.steps.get ⟨m, hm⟩) = true) →
      ∃ (tmF : TaskManagerState) (resultsF : List ExecutionResult)
        (lastResult : ExecutionResult),
        runExecutionTasksGo opts fenv dts 0 order tm [] =
          (tmF, resultsF ++ [lastResult], Except.error ("Flow aborted by user")) ∧
        resultsF.length = k ∧
        lastResult.status = ResultStatus.failure ∧
        lastResult.error = some ("Task execution aborted") := by
  have parta : ∀ (env : ExecEnv) (tm : TaskManagerState) (task : DetailedTask) (j : Nat),
      env.abortedAt = some j → j < task.steps.length →
      (∀ (m : Nat) (hm : m < task.steps.length), m < j →
        stepProceeds env m (task.steps.get ⟨m, hm⟩) = true) →
      (executeTask env tm task).2.status = ResultStatus.failure ∧
      (executeTask env tm task).2.error = some ("Task execution aborted") := by
    intro env tm task j hj hlt hproc
    have herr : runStepsFrom env 0 task.steps [] =
        Except.error ("Task execution aborted") := by
      apply runStepsFrom_abort env j hj task.steps 0 [] (by omega) (by omega)
      intro m hm hmj
      rw [Nat.zero_add] at hmj ⊢
      exact hproc m hm hmj
    constructor
    · unfold executeTask
      rw [herr]
    · unfold executeTask
      rw [herr]
  refine ⟨parta, by decide, ?_⟩
  intro opts fenv dts order tm k j hk hdry hmax habf habt hfind hjenv hdtk
  have hklt : k < order.length := by omega
  have hlentake : (order.take k).length = k := by
    rw [List.length_take]
    omega
  obtain ⟨tm2, newResults, heq, hlen⟩ :=
    runExec_append opts fenv dts hdry hmax (order.take k) (order.drop k) 0 tm []
      (by
        intro m hm
        rw [hlentake] at hm
        rw [Nat.zero_add]
        exact habf m (by omega))
      (by
        intro m hm
        have hm' : m < order.length := by rw [hlentake] at hm; omega
        have hget : (order.take k).get ⟨m, hm⟩ = order.get ⟨m, hm'⟩ := by
          simp [List.getElem_take]
        rw [hget]
        exact hfind m hm' (by rw [hlentake] at hm; omega))
  rw [List.take_append_drop] at heq
  rw [hlentake, Nat.zero_add] at heq
  have hdropk : order.drop k = order.get ⟨k, hklt⟩ :: order.drop (k + 1) := by
    rw [List.drop_eq_getElem_cons hklt]
    rfl
  have hdropk1 : order.drop (k + 1) = order.get ⟨k + 1, hk⟩ :: order.drop (k + 2) := by
    rw [List.drop_eq_getElem_cons hk]
    rfl
  obtain ⟨dtk, hdtkfind⟩ : ∃ dtk,
      dts.find? (fun dt => dt.id = (order.get ⟨k, hklt⟩).id) = some dtk := by
    have h0 := hfind k hklt (by omega)
    cases hfd : dts.find? (fun dt => dt.id = (order.get ⟨k, hklt⟩).id) with
    | none => rw [hfd] at h0; cases h0
    | some dtk => exact ⟨dtk, rfl⟩
  obtain ⟨hjlt, hproc⟩ := hdtk dtk hdtkfind
  obtain ⟨hstat, herrf⟩ := parta (fenv.taskEnv k) tm2 dtk j hjenv hjlt hproc
  rcases hex : executeTask (fenv.taskEnv k) tm2 dtk with ⟨tmx, rx⟩
  rw [hex] at hstat herrf
  have habk : fenv.abortedBefore k = false := habf k (by omega)
  have hstepk : runExecutionTasksGo opts fenv dts k (order.drop k) tm2 ([] ++ newResults) =
      runExecutionTasksGo opts fenv dts (k + 1) (order.drop (k + 1)) tmx
        (([] ++ newResults) ++ [rx]) := by
    rw [hdropk]
    simp only [runExecutionTasksGo, habk, Bool.false_eq_true, if_false, hdtkfind,
      hdry, hex]
    rw [retryExecuteGo_first_ok _ (tmx, rx) opts.maxRetries hmax rfl]
  have hstop : runExecutionTasksGo opts fenv dts (k + 1) (order.drop (k + 1)) tmx
      (([] ++ newResults) ++ [rx]) =
      (tmx, ([] ++ newResults) ++ [rx], Except.error ("Flow aborted by user")) := by
    rw [hdropk1]
    simp only [runExecutionTasksGo, habt, if_true]
  refine ⟨tmx, newResults, rx, ?_, ?_, hstat, herrf⟩
  · rw [heq, hstepk, hstop, List.nil_append]
  · rw [hlen, hlentake]

/-- Witness for C8: aborting during task `A` of the order `[A, B]` yields a
phase error after exactly the aborted failure result, with task `B` never
started. -/
theorem abort_fails_current_task_and_stops_witness :
    ∃ (tmF : TaskManagerState) (resultsF : List ExecutionResult)
      (lastResult : ExecutionResult),
      runExecutionTasksGo {} fenvAbort [dtA, dtB] 0 [taskA, taskB] emptyTM [] =
        (tmF, resultsF ++ [lastResult], Except.error ("Flow aborted by user")) ∧
      resultsF.length = 0 ∧
      lastResult.status = ResultStatus.failure ∧
      lastResult.error = some ("Task execution aborted") := by
  apply abort_fails_current_task_and_stops.2.2 {} fenvAbort [dtA, dtB]
    [taskA, taskB] emptyTM 0 0 (by decide) (by rfl) (by decide)
    (by intro m hm; have hm0 : m = 0 := (by omega); subst hm0; rfl)
    (by rfl) (by decide) (by rfl)
  intro dtk hdtk
  have hdtk2 : (some dtA : Option DetailedTask) = some dtk := hdtk
  cases Option.some.inj hdtk2
  exact ⟨by decide, by intro m hm hmj; omega⟩

/-- Counterexample to the original C8 reading: the abort signal arrives while
task `A` is executing -- during its final (only) step, after the last
per-step boundary check -- so no abort check inside the task observes it.
Task `A` completes and its recorded result has status `success` with no
error, contradicting the claimed `failure` containing "aborted"; the flow
still stops before task `B`, whose env is never consulted. -/
theorem abort_fails_current_task_and_stops_counterexample :
    fenvAbortLate.taskEnv 0 = fixEnv ∧
    fixEnv.abortedAt = none ∧
    fenvAbortLate.abortedBefore 0 = false ∧
    fenvAbortLate.abortedBefore 1 = true ∧
    (runExecutionTasksGo {} fenvAbortLate [dtA, dtB] 0 [taskA, taskB]
        emptyTM []).2.1.map (fun r => (r.taskId, r.status, r.error)) =
      [("A", ResultStatus.success, none)] ∧
    (runExecutionTasksGo {} fenvAbortLate [dtA, dtB] 0 [taskA, taskB]
        emptyTM []).2.2 = Except.error ("Flow aborted by user") :=
  ⟨rfl, rfl, rfl, rfl, by decide, rfl⟩

/-! ### Planner lemmas: the task map -/

/-- Auxiliary characterization of the lookup fold. -/
theorem taskLookup_aux (tid : String) :
    ∀ (tasks : List Task) (acc : Option Task) (t : Task),
      tasks.foldl (fun acc u => if u.id = tid then some u else acc) acc = some t →
      acc = some t ∨ (t ∈ tasks ∧ t.id = tid) := by
  intro tasks
  induction tasks with
  | nil => intro acc t h; exact Or.inl h
  | cons u us ih =>
      intro acc t h
      rcases ih _ t h with hacc | hmem
      · dsimp only at hacc
        by_cases hu : u.id = tid
        · rw [if_pos hu] at hacc
          cases Option.some.inj hacc
          exact Or.inr ⟨List.mem_cons_self u us, hu⟩
        · rw [if_neg hu] at hacc
          exact Or.inl hacc
      · exact Or.inr ⟨List.mem_cons_of_mem u hmem.1, hmem.2⟩

/-- A successful lookup returns a member task carrying the looked-up id. -/
theorem taskLookup_mem {tasks : List Task} {tid : String} {t : Task}
    (h : taskLookup tasks tid = some t) : t ∈ tasks ∧ t.id = tid := by
  rcases taskLookup_aux tid tasks none t h with hacc | hmem
  · cases hacc
  · exact hmem

/-- A fold whose accumulator is `some` never returns `none`. -/
theorem taskLookup_acc_some (tid : String) :
    ∀ (tasks : List Task) (u : Task),
      ∃ w, tasks.foldl (fun acc v => if v.id = tid then some v else acc) (some u) = some w := by
  intro tasks
  induction tasks with
  | nil => intro u; exact ⟨u, rfl⟩
  | cons v vs ih =>
      intro u
      by_cases hv : v.id = tid
      · simp only [List.foldl_cons, if_pos hv]
        exact ih v
      · simp only [List.foldl_cons, if_neg hv]
        exact ih u

/-- An id occurring in the list has a lookup result. -/
theorem taskLookup_isSome {tasks : List Task} {tid : String}
    (h : tid ∈ tasks.map (fun t => t.id)) : ∃ t, taskLookup tasks tid = some t := by
  obtain ⟨u, hu, hid⟩ := List.mem_map.mp h
  unfold taskLookup
  obtain ⟨l1, l2, rfl⟩ := List.append_of_mem hu
  rw [List.foldl_append, List.foldl_cons, if_pos hid]
  exact taskLookup_acc_some tid l2 u

/-- With pairwise-distinct ids the lookup of a member's id returns exactly that
member. -/
theorem taskLookup_self {tasks : List Task}
    (hnd : (tasks.map (fun t => t.id)).Nodup) :
    ∀ {t : Task}, t ∈ tasks → taskLookup tasks t.id = some t := by
  induction tasks with
  | nil => intro t ht; cases ht
  | cons u us ih =>
      intro t ht
      rw [List.map_cons, List.nodup_cons] at hnd
      obtain ⟨hu, hus⟩ := hnd
      have hpres : ∀ (vs : List Task) (acc : Option Task) (tid : String),
          (∀ v ∈ vs, v.id ≠ tid) →
          vs.foldl (fun acc v => if v.id = tid then some v else acc) acc = acc := by
        intro vs
        induction vs with
        | nil => intro acc tid _; rfl
        | cons v vs ihv =>
            intro acc tid hne
            rw [List.foldl_cons, if_neg (hne v (List.mem_cons_self v vs))]
            exact ihv acc tid (fun w hw => hne w (List.mem_cons_of_mem v hw))
      rcases List.mem_cons.mp ht with rfl | hmem
      · show (t :: us).foldl (fun acc v => if v.id = t.id then some v else acc) none = some t
        rw [List.foldl_cons, if_pos rfl]
        exact hpres us (some t) t.id
          (fun v hv heq => hu (heq ▸ List.mem_map_of_mem (fun w => w.id) hv))
      · have hne : u.id ≠ t.id := by
          intro heq
          exact hu (heq ▸ List.mem_map_of_mem (fun w => w.id) hmem)
        show (u :: us).foldl (fun acc v => if v.id = t.id then some v else acc) none = some t
        rw [List.foldl_cons, if_neg hne]
        exact ih hus hmem

/-! ### Planner lemmas: fuel sufficiency -/

/-- Unfolding of the weight over a head task. -/
theorem unvisitedWeight_cons (u : Task) (us : List Task) (v : List String) :
    unvisitedWeight (u :: us) v =
      (if u.id ∈ v then 0 else 1 + u.dependencies.length) +
        unvisitedWeight us v := by
  unfold unvisitedWeight
  rw [List.filter_cons]
  by_cases h : u.id ∈ v
  · rw [if_pos h, if_neg (by simp [h])]
    rw [Nat.zero_add]
  · rw [if_neg h, if_pos (by simp [h])]
    rw [List.map_cons, List.sum_cons]

/-- Growing the visited set can only shrink the weight. -/
theorem unvisitedWeight_mono (tasks : List Task) :
    ∀ (v v' : List String), (∀ x ∈ v, x ∈ v') →
      unvisitedWeight tasks v' ≤ unvisitedWeight tasks v := by
  induction tasks with
  | nil => intro v v' _; simp [unvisitedWeight]
  | cons u us ih =>
      intro v v' hsub
      rw [unvisitedWeight_cons, unvisitedWeight_cons]
      have hrec := ih v v' hsub
      by_cases h : u.id ∈ v
      · rw [if_pos h, if_pos (hsub _ h)]
        omega
      · rw [if_neg h]
        by_cases h' : u.id ∈ v'
        · rw [if_pos h']
          omega
        · rw [if_neg h']
          omega

/-- Visiting a fresh member task removes its full weight contribution. -/
theorem unvisitedWeight_insert (tasks : List Task) :
    ∀ (t : Task) (v : List String), t ∈ tasks → t.id ∉ v →
      unvisitedWeight tasks (t.id :: v) + (1 + t.dependencies.length) ≤
        unvisitedWeight tasks v := by
  induction tasks with
  | nil => intro t v ht _; cases ht
  | cons u us ih =>
      intro t v ht hv
      rw [unvisitedWeight_cons, unvisitedWeight_cons]
      rcases List.mem_cons.mp ht with rfl | hmem
      · rw [if_pos (List.mem_cons_self _ _), if_neg hv]
        have := unvisitedWeight_mono us v (t.id :: v)
          (fun x hx => List.mem_cons_of_mem _ hx)
        omega
      · have hm := ih t v hmem hv
        by_cases h : u.id ∈ v
        · rw [if_pos h, if_pos (List.mem_cons_of_mem _ h)]
          omega
        · rw [if_neg h]
          by_cases h' : u.id ∈ t.id :: v
          · rw [if_pos h']
            omega
          · rw [if_neg h']
            omega

/-- The DFS only grows the visited set, only appends to the result. -/
theorem visitIds_mono (tm : String → Option Task) :
    ∀ (f : Nat) (l : List String) (st st' : VisitState),
      visitIds tm f l st = some st' →
      (∀ x ∈ st.visited, x ∈ st'.visited) ∧ ∃ ext, st'.result = st.result ++ ext := by
  intro f
  induction f with
  | zero => intro l st st' h; cases h
  | succ f ih =>
      intro l st st' h
      match l with
      | [] =>
          cases h
          exact ⟨fun x hx => hx, [], by simp⟩
      | tid :: rest =>
          rw [visitIds] at h
          by_cases hv : tid ∈ st.visited
          · rw [if_pos hv] at h
            exact ih rest st st' h
          · rw [if_neg hv] at h
            cases hlk : tm tid with
            | none =>
                rw [hlk] at h
                have h2 : visitIds tm f rest { st with visited := tid :: st.visited } =
                    some st' := h
                obtain ⟨hsub, ext, hext⟩ := ih rest _ st' h2
                exact ⟨fun x hx => hsub x (List.mem_cons_of_mem _ hx), ext, hext⟩
            | some task =>
                rw [hlk] at h
                have h2 : (match visitIds tm f task.dependencies
                      { st with visited := tid :: st.visited } with
                    | none => none
                    | some st2 =>
                        visitIds tm f rest { st2 with result := st2.result ++ [task] }) =
                    some st' := h
                cases hin : visitIds tm f task.dependencies
                    { st with visited := tid :: st.visited } with
                | none => rw [hin] at h2; cases h2
                | some st2 =>
                    rw [hin] at h2
                    obtain ⟨hsub1, ext1, hext1⟩ := ih _ _ _ hin
                    obtain ⟨hsub2, ext2, hext2⟩ := ih _ _ _ h2
                    refine ⟨?_, ext1 ++ [task] ++ ext2, ?_⟩
                    · intro x hx
                      exact hsub2 x (hsub1 x (List.mem_cons_of_mem _ hx))
                    · rw [hext2]
                      show st2.result ++ [task] ++ ext2 = _
                      rw [hext1]
                      simp

/-- With fuel exceeding the pending work, the DFS cannot run out: the
`standardFuel` seed always suffices, so `getExecutionOrder` terminates on
every input, cyclic ones included. -/
theorem visitIds_isSome (tasks : List Task) :
    ∀ (f : Nat) (l : List String) (st : VisitState),
      l.length + unvisitedWeight tasks st.visited < f →
      ∃ st', visitIds (taskLookup tasks) f l st = some st' := by
  intro f
  induction f with
  | zero => intro l st h; omega
  | succ f ih =>
      intro l st h
      match l with
      | [] => exact ⟨st, rfl⟩
      | tid :: rest =>
          rw [visitIds]
          by_cases hv : tid ∈ st.visited
          · rw [if_pos hv]
            apply ih rest st
            simp only [List.length_cons] at h
            omega
          · rw [if_neg hv]
            cases hlk : taskLookup tasks tid with
            | none =>
                apply ih rest { st with visited := tid :: st.visited }
                have hmono := unvisitedWeight_mono tasks st.visited (tid :: st.visited)
                  (fun x hx => List.mem_cons_of_mem _ hx)
                simp only [List.length_cons] at h
                simp only []
                omega
            | some task =>
                obtain ⟨hmem, hid⟩ := taskLookup_mem hlk
                have hins := unvisitedWeight_insert tasks task st.visited hmem
                  (by rw [hid]; exact hv)
                rw [hid] at hins
                simp only [List.length_cons] at h
                obtain ⟨st2, hst2⟩ := ih task.dependencies
                  { st with visited := tid :: st.visited } (by simp only []; omega)
                show ∃ st', (match visitIds (taskLookup tasks) f task.dependencies
                      { st with visited := tid :: st.visited } with
                    | none => none
                    | some st2 =>
                        visitIds (taskLookup tasks) f rest
                          { st2 with result := st2.result ++ [task] }) = some st'
                rw [hst2]
                obtain ⟨hsub, _, _⟩ := visitIds_mono (taskLookup tasks) f
                  task.dependencies { st with visited := tid :: st.visited } st2 hst2
                have hm2 : unvisitedWeight tasks st2.visited ≤
                    unvisitedWeight tasks (tid :: st.visited) :=
                  unvisitedWeight_mono tasks _ _ hsub
                apply ih rest { st2 with result := st2.result ++ [task] }
                simp only []
                omega

/-! ### Planner lemmas: the DFS postorder invariant -/

/-- Every entry of a dependency chain reaches its head. -/
theorem grayChain_reaches (tasks : List Task) :
    ∀ (gray : List String) (c : String), grayChain tasks (c :: gray) →
      ∀ a ∈ c :: gray, a = c ∨ Relation.TransGen (depEdge tasks) a c := by
  intro gray
  induction gray with
  | nil =>
      intro c _ a ha
      rcases List.mem_cons.mp ha with rfl | h
      · exact Or.inl rfl
      · cases h
  | cons b gs ih =>
      intro c hch a ha
      rw [grayChain, List.chain'_cons] at hch
      obtain ⟨hedge, htail⟩ := hch
      have hbc : Relation.TransGen (depEdge tasks) b c := Relation.TransGen.single hedge
      rcases List.mem_cons.mp ha with rfl | h
      · exact Or.inl rfl
      · rcases ih b htail a h with rfl | hab
        · exact Or.inr hbc
        · exact Or.inr (hab.trans hbc)

/-- Appending a task whose dependencies are already listed preserves
topological order. -/
theorem topoOrdered_append (r : List Task) (t : Task) (h : topoOrdered r)
    (hd : ∀ d ∈ t.dependencies, d ∈ idsOf r) : topoOrdered (r ++ [t]) := by
  intro i hi d hdi
  have hlen : i < r.length + 1 := by simpa using hi
  have htake : ∀ (j : Nat), j ≤ r.length → (r ++ [t]).take j = r.take j := by
    intro j hj
    rw [List.take_append_eq_append_take]
    have : j - r.length = 0 := by omega
    rw [this, List.take_zero, List.append_nil]
  by_cases hir : i < r.length
  · have hget : (r ++ [t]).get ⟨i, hi⟩ = r.get ⟨i, hir⟩ := by
      simp [List.getElem_append_left hir]
    rw [hget] at hdi
    rw [htake i (by omega)]
    exact h i hir d hdi
  · have hieq : i = r.length := by omega
    subst hieq
    have hget : (r ++ [t]).get ⟨r.length, hi⟩ = t := by
      simp
    rw [hget] at hdi
    rw [htake r.length (by omega), List.take_length]
    exact hd d hdi

/-- Ids distribute over append. -/
theorem idsOf_append (a b : List Task) : idsOf (a ++ b) = idsOf a ++ idsOf b := by
  simp [idsOf]

/-- The main invariant of the `getExecutionOrder` DFS: starting from an
invariant state with call-stack ghost `gray` and a worklist of task ids that
are dependencies of the stack head, a successful run preserves the invariant
and visits the whole worklist. -/
theorem visitIds_spec (tasks : List Task) (hacy : Acyclic tasks)
    (hdeps : ∀ t ∈ tasks, ∀ d ∈ t.dependencies, d ∈ tasks.map (fun t => t.id)) :
    ∀ (f : Nat) (l : List String) (st st' : VisitState) (gray : List String),
      visitIds (taskLookup tasks) f l st = some st' →
      VisitInv tasks st gray →
      grayChain tasks gray →
      (∀ x ∈ l, x ∈ tasks.map (fun t => t.id)) →
      (∀ a, gray.head? = some a → ∀ x ∈ l, depEdge tasks a x) →
      VisitInv tasks st' gray ∧ (∀ x ∈ l, x ∈ st'.visited) := by
  intro f
  induction f with
  | zero => intro l st st' gray h; cases h
  | succ f ih =>
      intro l st st' gray h hinv hch hl hhead
      match l with
      | [] =>
          cases h
          exact ⟨hinv, by intro x hx; cases hx⟩
      | tid :: rest =>
          rw [visitIds] at h
          by_cases hv : tid ∈ st.visited
          · rw [if_pos hv] at h
            obtain ⟨hinv', hsub'⟩ := ih rest st st' gray h hinv hch
              (fun x hx => hl x (List.mem_cons_of_mem _ hx))
              (fun a ha x hx => hhead a ha x (List.mem_cons_of_mem _ hx))
            obtain ⟨hmono, _⟩ := visitIds_mono (taskLookup tasks) f rest st st' h
            refine ⟨hinv', ?_⟩
            intro x hx
            rcases List.mem_cons.mp hx with rfl | hx'
            · exact hmono x hv
            · exact hsub' x hx'
          · rw [if_neg hv] at h
            cases hlk : taskLookup tasks tid with
            | none =>
                exfalso
                obtain ⟨t, ht⟩ := taskLookup_isSome (hl tid (List.mem_cons_self _ _))
                rw [hlk] at ht
                cases ht
            | some task =>
                rw [hlk] at h
                obtain ⟨hmemt, hidt⟩ := taskLookup_mem hlk
                obtain ⟨hmem, hnd, hdisj, hlook, hord⟩ := hinv
                have h2 : (match visitIds (taskLookup tasks) f task.dependencies
                      { st with visited := tid :: st.visited } with
                    | none => none
                    | some st2 =>
                        visitIds (taskLookup tasks) f rest
                          { st2 with result := st2.result ++ [task] }) = some st' := h
                cases hin : visitIds (taskLookup tasks) f task.dependencies
                    { st with visited := tid :: st.visited } with
                | none => rw [hin] at h2; cases h2
                | some st2 =>
                    rw [hin] at h2
                    have htid_gray : tid ∉ gray := by
                      intro hg
                      exact hv ((hmem tid).mpr (Or.inr hg))
                    have htid_res : tid ∉ idsOf st.result := by
                      intro hg
                      exact hv ((hmem tid).mpr (Or.inl hg))
                    have hinv1 : VisitInv tasks { st with visited := tid :: st.visited }
                        (tid :: gray) := by
                      refine ⟨?_, hnd, ?_, hlook, hord⟩
                      · intro x
                        constructor
                        · intro hx
                          rcases List.mem_cons.mp hx with rfl | hx'
                          · exact Or.inr (List.mem_cons_self _ _)
                          · rcases (hmem x).mp hx' with hr | hg
                            · exact Or.inl hr
                            · exact Or.inr (List.mem_cons_of_mem _ hg)
                        · intro hx
                          rcases hx with hr | hg
                          · exact List.mem_cons_of_mem _ ((hmem x).mpr (Or.inl hr))
                          · rcases List.mem_cons.mp hg with rfl | hg'
                            · exact List.mem_cons_self _ _
                            · exact List.mem_cons_of_mem _ ((hmem x).mpr (Or.inr hg'))
                      · intro x hx
                        rcases List.mem_cons.mp hx with rfl | hx'
                        · exact htid_res
                        · exact hdisj x hx'
                    have hch1 : grayChain tasks (tid :: gray) := by
                      rw [grayChain, List.chain'_cons']
                      refine ⟨?_, hch⟩
                      intro y hy
                      exact hhead y (by
                        cases gray with
                        | nil => cases hy
                        | cons g gs => cases hy; rfl) tid (List.mem_cons_self _ _)
                    obtain ⟨hinv2, hdepsvis⟩ := ih task.dependencies _ st2 (tid :: gray)
                      hin hinv1 hch1
                      (fun d hd => hdeps task hmemt d hd)
                      (by
                        intro a ha d hd
                        cases ha
                        exact ⟨task, hmemt, hidt, hd⟩)
                    obtain ⟨hmem2, hnd2, hdisj2, hlook2, hord2⟩ := hinv2
                    have htid_res2 : tid ∉ idsOf st2.result :=
                      hdisj2 tid (List.mem_cons_self _ _)
                    have hdep_in_res : ∀ d ∈ task.dependencies, d ∈ idsOf st2.result := by
                      intro d hd
                      rcases (hmem2 d).mp (hdepsvis d hd) with hr | hg
                      · exact hr
                      · exfalso
                        have hedge : depEdge tasks tid d := ⟨task, hmemt, hidt, hd⟩
                        rcases grayChain_reaches tasks gray tid hch1 d hg with rfl | hreach
                        · exact hacy d (Relation.TransGen.single hedge)
                        · exact hacy d (hreach.tail hedge)
                    have hids3 : idsOf (st2.result ++ [task]) = idsOf st2.result ++ [tid] := by
                      rw [idsOf_append]
                      simp [idsOf, hidt]
                    have hinv3 : VisitInv tasks { st2 with result := st2.result ++ [task] }
                        gray := by
                      refine ⟨?_, ?_, ?_, ?_, ?_⟩
                      · intro x
                        rw [show ({ st2 with result := st2.result ++ [task] } :
                            VisitState).visited = st2.visited from rfl]
                        rw [show ({ st2 with result := st2.result ++ [task] } :
                            VisitState).result = st2.result ++ [task] from rfl]
                        rw [hids3]
                        constructor
                        · intro hx
                          rcases (hmem2 x).mp hx with hr | hg
                          · exact Or.inl (List.mem_append_left _ hr)
                          · rcases List.mem_cons.mp hg with rfl | hg'
                            · exact Or.inl (List.mem_append_right _
                                (List.mem_singleton.mpr rfl))
                            · exact Or.inr hg'
                        · intro hx
                          rcases hx with hr | hg
                          · rcases List.mem_append.mp hr with hr' | hr'
                            · exact (hmem2 x).mpr (Or.inl hr')
                            · rw [List.mem_singleton] at hr'
                              subst hr'
                              exact (hmem2 x).mpr (Or.inr (List.mem_cons_self _ _))
                          · exact (hmem2 x).mpr (Or.inr (List.mem_cons_of_mem _ hg))
                      · rw [show ({ st2 with result := st2.result ++ [task] } :
                            VisitState).result = st2.result ++ [task] from rfl]
                        rw [hids3]
                        rw [List.nodup_append]
                        exact ⟨hnd2, List.nodup_singleton _,
                          by
                            intro x hx hx'
                            rw [List.mem_singleton] at hx'
                            subst hx'
                            exact htid_res2 hx⟩
                      · intro x hx
                        rw [show ({ st2 with result := st2.result ++ [task] } :
                            VisitState).result = st2.result ++ [task] from rfl]
                        rw [hids3]
                        intro hmemx
                        rcases List.mem_append.mp hmemx with hr | hr
                        · exact hdisj2 x (List.mem_cons_of_mem _ hx) hr
                        · rw [List.mem_singleton] at hr
                          subst hr
                          exact htid_gray hx
                      · intro t ht
                        rcases List.mem_append.mp ht with ht' | ht'
                        · exact hlook2 t ht'
                        · rw [List.mem_singleton] at ht'
                          subst ht'
                          rw [hidt]
                          exact hlk
                      · exact topoOrdered_append st2.result task hord2 hdep_in_res
                    obtain ⟨hinv', hsub'⟩ := ih rest _ st' gray h2 hinv3 hch
                      (fun x hx => hl x (List.mem_cons_of_mem _ hx))
                      (fun a ha x hx => hhead a ha x (List.mem_cons_of_mem _ hx))
                    obtain ⟨hmono1, _⟩ := visitIds_mono (taskLookup tasks) f
                      task.dependencies _ st2 hin
                    obtain ⟨hmono2, _⟩ := visitIds_mono (taskLookup tasks) f rest _ st' h2
                    refine ⟨hinv', ?_⟩
                    intro x hx
                    rcases List.mem_cons.mp hx with rfl | hx'
                    · exact hmono2 x (hmono1 x (List.mem_cons_self _ _))
                    · exact hsub' x hx'

/-- Resolving a dependency-closed, lookup-faithful result list through the
task map reproduces it. -/
theorem filterMap_lookup_eq (tasks : List Task) :
    ∀ (r : List Task), (∀ t ∈ r, taskLookup tasks t.id = some t) →
      (idsOf r).filterMap (taskLookup tasks) = r := by
  intro r
  induction r with
  | nil => intro _; rfl
  | cons t ts ih =>
      intro h
      show (t.id :: idsOf ts).filterMap (taskLookup tasks) = t :: ts
      rw [List.filterMap_cons, h t (List.mem_cons_self _ _)]
      rw [ih (fun u hu => h u (List.mem_cons_of_mem _ hu))]

/-- The DFS on an independent task list (no dependencies anywhere) visits the
worklist in order and appends the corresponding tasks in order. -/
theorem visitIds_indep (tasks : List Task) :
    ∀ (ts : List Task) (f : Nat) (st : VisitState),
      ts.length < f →
      (∀ t ∈ ts, taskLookup tasks t.id = some t) →
      (∀ t ∈ ts, t.dependencies = []) →
      (∀ t ∈ ts, t.id ∉ st.visited) →
      (idsOf ts).Nodup →
      ∃ v', visitIds (taskLookup tasks) f (ts.map (fun t => t.id)) st =
          some ⟨v', st.result ++ ts⟩ ∧
        (∀ x, x ∈ v' ↔ (x ∈ idsOf ts ∨ x ∈ st.visited)) := by
  intro ts
  induction ts with
  | nil =>
      intro f st hf _ _ _ _
      cases f with
      | zero => omega
      | succ g =>
          refine ⟨st.visited, ?_, ?_⟩
          · show some st = some ⟨st.visited, st.result ++ []⟩
            rw [List.append_nil]
          · intro x
            simp [idsOf]
  | cons t us ih =>
      intro f st hf hlk hdep hnvis hnd
      cases f with
      | zero => omega
      | succ g =>
          have hg : 0 < g := by
            simp only [List.length_cons] at hf
            omega
          obtain ⟨g2, rfl⟩ : ∃ g2, g = g2 + 1 := ⟨g - 1, by omega⟩
          have hstep : visitIds (taskLookup tasks) (g2 + 1 + 1)
              ((t :: us).map (fun u => u.id)) st =
              visitIds (taskLookup tasks) (g2 + 1) (us.map (fun u => u.id))
                { visited := t.id :: st.visited, result := st.result ++ [t] } := by
            rw [List.map_cons, visitIds,
              if_neg (hnvis t (List.mem_cons_self _ _)),
              hlk t (List.mem_cons_self _ _)]
            show (match visitIds (taskLookup tasks) (g2 + 1) t.dependencies
                  { st with visited := t.id :: st.visited } with
                | none => none
                | some st2 =>
                    visitIds (taskLookup tasks) (g2 + 1)
                      (us.map (fun u : Task => u.id))
                      { st2 with result := st2.result ++ [t] }) = _
            rw [hdep t (List.mem_cons_self _ _)]
            rfl
          rw [hstep]
          rw [show idsOf (t :: us) = t.id :: idsOf us from rfl, List.nodup_cons] at hnd
          obtain ⟨htid, hndus⟩ := hnd
          obtain ⟨v', hrun, hv'⟩ := ih (g2 + 1)
                { visited := t.id :: st.visited, result := st.result ++ [t] }
                (by simp only [List.length_cons] at hf; omega)
                (fun u hu => hlk u (List.mem_cons_of_mem _ hu))
                (fun u hu => hdep u (List.mem_cons_of_mem _ hu))
                (by
                  intro u hu hmem
                  rcases List.mem_cons.mp hmem with heq | hmem'
                  · exact htid (heq ▸ List.mem_map_of_mem (fun w => w.id) hu)
                  · exact hnvis u (List.mem_cons_of_mem _ hu) hmem')
                hndus
          rw [hrun]
          refine ⟨v', ?_, ?_⟩
          · rw [show (st.result ++ [t]) ++ us = st.result ++ (t :: us) by simp]
          · intro x
            rw [hv' x]
            constructor
            · rintro (hx | hx)
              · exact Or.inl (List.mem_cons_of_mem _ hx)
              · rcases List.mem_cons.mp hx with rfl | hx'
                · exact Or.inl (List.mem_cons_self _ _)
                · exact Or.inr hx'
            · rintro (hx | hx)
              · rcases List.mem_cons.mp hx with rfl | hx'
                · exact Or.inr (List.mem_cons_self _ _)
                · exact Or.inl hx'
              · exact Or.inr (List.mem_cons_of_mem _ hx)

/-! ### Claim C2: getExecutionOrder is a topological order -/

/-- Claim C2: on a task list with distinct ids whose dependencies all refer to
tasks in the list and whose dependency graph is acyclic, `getExecutionOrder`
returns a permutation of the input in which every task appears after all of
its dependencies; a list of tasks without dependencies is returned in the
original array order (the defined tie-break); and the concrete example
`[B, A]` with `B` depending on `A` yields `[A, B]`. -/
theorem getExecutionOrder_topological :
    (∀ (tasks : List Task),
      (tasks.map (fun t => t.id)).Nodup →
      (∀ t ∈ tasks, ∀ d ∈ t.dependencies, d ∈ tasks.map (fun t => t.id)) →
      Acyclic tasks →
      (getExecutionOrder tasks).Perm tasks ∧ topoOrdered (getExecutionOrder tasks)) ∧
    (∀ (tasks : List Task),
      (tasks.map (fun t => t.id)).Nodup →
      (∀ t ∈ tasks, t.dependencies = []) →
      getExecutionOrder tasks = tasks) ∧
    getExecutionOrder [taskB, taskA] = [taskA, taskB] := by
  refine ⟨?_, ?_, by decide⟩
  · intro tasks hnd hdeps hacy
    obtain ⟨st', hst'⟩ := visitIds_isSome tasks (standardFuel tasks)
      (tasks.map (fun t => t.id)) ⟨[], []⟩
      (by unfold standardFuel; simp only [List.length_map]; omega)
    have hres : getExecutionOrder tasks = st'.result := by
      unfold getExecutionOrder
      rw [hst']
    have hinv0 : VisitInv tasks ⟨[], []⟩ [] := by
      refine ⟨by simp [idsOf], by simp [idsOf], by simp, by simp, ?_⟩
      intro i hi
      simp at hi
    obtain ⟨⟨hmem', hnd', _, hlook', hord'⟩, hall⟩ :=
      visitIds_spec tasks hacy hdeps (standardFuel tasks) _ _ st' [] hst' hinv0
        (by rw [grayChain]; exact List.chain'_nil)
        (fun x hx => hx)
        (by intro a ha; cases ha)
    have hmem2 : ∀ x, x ∈ st'.visited ↔ x ∈ idsOf st'.result := by
      intro x
      rw [hmem' x]
      simp
    have hids_sub : ∀ x, x ∈ tasks.map (fun t => t.id) ↔ x ∈ idsOf st'.result := by
      intro x
      constructor
      · intro hx
        exact (hmem2 x).mp (hall x hx)
      · intro hx
        obtain ⟨t, ht, hid⟩ := List.mem_map.mp hx
        obtain ⟨hmemt, _⟩ := taskLookup_mem (hlook' t ht)
        exact hid ▸ List.mem_map_of_mem (fun w => w.id) hmemt
    have hperm_ids : (tasks.map (fun t => t.id)).Perm (idsOf st'.result) :=
      (List.perm_ext_iff_of_nodup hnd hnd').mpr hids_sub
    have hperm : (getExecutionOrder tasks).Perm tasks := by
      rw [hres]
      have h1 := hperm_ids.filterMap (taskLookup tasks)
      rw [show tasks.map (fun t => t.id) = idsOf tasks from rfl] at h1
      rw [filterMap_lookup_eq tasks tasks (fun t ht => taskLookup_self hnd ht)] at h1
      rw [filterMap_lookup_eq tasks st'.result hlook'] at h1
      exact h1.symm
    exact ⟨hperm, hres ▸ hord'⟩
  · intro tasks hnd hdeps
    obtain ⟨v', hrun, _⟩ := visitIds_indep tasks tasks (standardFuel tasks) ⟨[], []⟩
      (by unfold standardFuel; omega)
      (fun t ht => taskLookup_self hnd ht)
      hdeps
      (by intro t _ hmem; cases hmem)
      hnd
    unfold getExecutionOrder
    rw [hrun]
    rfl

/-- Witness for C2 on the concrete acyclic pair `[B, A]`: the returned order
is a permutation of the input and topologically ordered. -/
theorem getExecutionOrder_topological_witness :
    (getExecutionOrder [taskB, taskA]).Perm [taskB, taskA] ∧
    topoOrdered (getExecutionOrder [taskB, taskA]) := by
  have hedge : ∀ a b, depEdge [taskB, taskA] a b → a = "B" ∧ b = "A" := by
    rintro a b ⟨t, ht, hid, hdep⟩
    rcases List.mem_cons.mp ht with rfl | ht'
    · refine ⟨hid.symm ▸ rfl, ?_⟩
      have : b ∈ ["A"] := hdep
      simpa using this
    · rcases List.mem_cons.mp ht' with rfl | ht''
      · exfalso
        have : b ∈ ([] : List String) := hdep
        cases this
      · cases ht''
  have hacy : Acyclic [taskB, taskA] := by
    intro x hx
    have hkey : ∀ a b, Relation.TransGen (depEdge [taskB, taskA]) a b →
        a = "B" ∧ b = "A" := by
      intro a b h
      induction h with
      | single h1 => exact hedge _ _ h1
      | tail _ h2 ihp =>
          obtain ⟨ha, hb⟩ := ihp
          obtain ⟨hb', hc⟩ := hedge _ _ h2
          exact absurd (hb.symm.trans hb') (by decide)
    obtain ⟨h1, h2⟩ := hkey x x hx
    exact absurd (h1.symm.trans h2) (by decide)
  exact (getExecutionOrder_topological.1 [taskB, taskA] (by decide)
    (by decide) hacy)

/-! ### Planner lemmas: the `detectCycles` DFS invariant -/

/-- Appending an id whose dependencies are already in the finish list preserves
the dependency-ordering of the finish list. -/
theorem finOrdered_append (tasks : List Task) (F : List String) (tid : String)
    (h : finOrdered tasks F) (hd : ∀ d ∈ idDeps tasks tid, d ∈ F) :
    finOrdered tasks (F ++ [tid]) := by
  intro i hi d hdi
  have hlen : i < F.length + 1 := by simpa using hi
  have htake : ∀ (j : Nat), j ≤ F.length → (F ++ [tid]).take j = F.take j := by
    intro j hj
    rw [List.take_append_eq_append_take]
    have hz : j - F.length = 0 := by omega
    rw [hz, List.take_zero, List.append_nil]
  by_cases hiF : i < F.length
  · have hget : (F ++ [tid]).get ⟨i, hi⟩ = F.get ⟨i, hiF⟩ := by
      simp [List.getElem_append_left hiF]
    rw [hget] at hdi
    rw [htake i (by omega)]
    exact h i hiF d hdi
  · have hieq : i = F.length := by omega
    subst hieq
    have hget : (F ++ [tid]).get ⟨F.length, hi⟩ = tid := by
      simp
    rw [hget] at hdi
    rw [htake F.length (by omega), List.take_length]
    exact hd d hdi

/-- An element of a take-prefix has its first occurrence inside that prefix. -/
theorem indexOf_lt_of_mem_take :
    ∀ (l : List String) (i : Nat) (b : String), b ∈ l.take i → l.indexOf b < i := by
  intro l
  induction l with
  | nil =>
      intro i b hb
      rw [List.take_nil] at hb
      cases hb
  | cons c cs ih =>
      intro i b hb
      match i with
      | 0 =>
          rw [List.take_zero] at hb
          cases hb
      | j + 1 =>
          rw [List.take_succ_cons] at hb
          by_cases hcb : c = b
          · subst hcb
            rw [List.indexOf_cons_self]
            omega
          · rcases List.mem_cons.mp hb with rfl | hb'
            · exact absurd rfl hcb
            · rw [List.indexOf_cons_ne _ hcb]
              have := ih j b hb'
              omega

/-- In a dependency-ordered finish list every dependency edge goes strictly
backwards (to a smaller first-occurrence index). -/
theorem finOrdered_edge_lt (tasks : List Task) (F : List String)
    (hford : finOrdered tasks F) :
    ∀ a ∈ F, ∀ b ∈ idDeps tasks a, b ∈ F ∧ F.indexOf b < F.indexOf a := by
  intro a ha b hb
  have hia : F.indexOf a < F.length := List.indexOf_lt_length.mpr ha
  have hget : F.get ⟨F.indexOf a, hia⟩ = a := List.indexOf_get hia
  have hmem := hford (F.indexOf a) hia b (by rw [hget]; exact hb)
  exact ⟨List.mem_of_mem_take hmem, indexOf_lt_of_mem_take F _ b hmem⟩

/-- A dependency-ordered finish list covering every edge source rules out
dependency cycles: along a cycle the first-occurrence index would strictly
decrease back to itself. -/
theorem finOrdered_acyclic (tasks : List Task) (F : List String)
    (hford : finOrdered tasks F)
    (hcover : ∀ a b, b ∈ idDeps tasks a → a ∈ F) :
    ∀ x, ¬ Relation.TransGen (fun a b => b ∈ idDeps tasks a) x x := by
  intro x hx
  have hkey : ∀ a b, Relation.TransGen (fun a b => b ∈ idDeps tasks a) a b →
      b ∈ F ∧ F.indexOf b < F.indexOf a := by
    intro a b h
    induction h with
    | single h1 => exact finOrdered_edge_lt tasks F hford a (hcover a _ h1) _ h1
    | tail hab h2 ihp =>
        obtain ⟨hbF, hlt⟩ := ihp
        obtain ⟨hcF, hlt2⟩ := finOrdered_edge_lt tasks F hford _ (hcover _ _ h2) _ h2
        exact ⟨hcF, by omega⟩
  obtain ⟨_, hlt⟩ := hkey x x hx
  omega

/-- The `detectCycles` DFS on a worklist that reports no cycle: the recursion
stack is restored, the finish list is extended, the invariant is preserved,
and every worklist id ends up finished. -/
theorem hasCycleIds_false_spec (tasks : List Task) :
    ∀ (f : Nat) (l : List String) (st st' : CycleState),
      hasCycleIds (taskLookup tasks) f l st = some (false, st') →
      CycleInv tasks st →
      CycleInv tasks st' ∧ st'.recStack = st.recStack ∧
        (∃ ext, st'.finished = st.finished ++ ext) ∧
        (∀ x ∈ l, x ∈ st'.finished) := by
  intro f
  induction f with
  | zero => intro l st st' h; cases h
  | succ f ih =>
      intro l st st' h hinv
      match l with
      | [] =>
          cases h
          exact ⟨hinv, rfl, ⟨[], by simp⟩, by intro x hx; cases hx⟩
      | tid :: rest =>
          rw [hasCycleIds] at h
          by_cases hv : tid ∈ st.visited
          · rw [if_pos hv] at h
            by_cases hr : tid ∈ st.recStack
            · rw [if_pos hr] at h
              cases h
            · rw [if_neg hr] at h
              obtain ⟨hinv', hrs, hext, hall⟩ := ih rest st st' h hinv
              refine ⟨hinv', hrs, hext, ?_⟩
              intro x hx
              rcases List.mem_cons.mp hx with rfl | hx'
              · obtain ⟨hmem, _, _, _, _⟩ := hinv
                rcases (hmem x).mp hv with hf | hrr
                · obtain ⟨ext, hexteq⟩ := hext
                  rw [hexteq]
                  exact List.mem_append_left _ hf
                · exact absurd hrr hr
              · exact hall x hx'
          · rw [if_neg hv] at h
            obtain ⟨hmem, hndf, hndr, hdisj, hford⟩ := hinv
            have htidf : tid ∉ st.finished := fun hf => hv ((hmem tid).mpr (Or.inl hf))
            have htidr : tid ∉ st.recStack := fun hf => hv ((hmem tid).mpr (Or.inr hf))
            cases hlk : taskLookup tasks tid with
            | none =>
                rw [hlk] at h
                have h2 : hasCycleIds (taskLookup tasks) f rest
                    ⟨tid :: st.visited, (tid :: st.recStack).erase tid,
                      st.finished ++ [tid]⟩ = some (false, st') := h
                rw [List.erase_cons_head] at h2
                have hinv1 : CycleInv tasks
                    ⟨tid :: st.visited, st.recStack, st.finished ++ [tid]⟩ := by
                  refine ⟨?_, ?_, hndr, ?_, ?_⟩
                  · intro x
                    constructor
                    · intro hx
                      rcases List.mem_cons.mp hx with rfl | hx'
                      · exact Or.inl (List.mem_append_right _
                          (List.mem_singleton.mpr rfl))
                      · rcases (hmem x).mp hx' with hf | hrr
                        · exact Or.inl (List.mem_append_left _ hf)
                        · exact Or.inr hrr
                    · intro hx
                      rcases hx with hf | hrr
                      · rcases List.mem_append.mp hf with hf' | hf'
                        · exact List.mem_cons_of_mem _ ((hmem x).mpr (Or.inl hf'))
                        · rw [List.mem_singleton] at hf'
                          subst hf'
                          exact List.mem_cons_self _ _
                      · exact List.mem_cons_of_mem _ ((hmem x).mpr (Or.inr hrr))
                  · rw [List.nodup_append]
                    refine ⟨hndf, List.nodup_singleton _, ?_⟩
                    intro x hx hx'
                    rw [List.mem_singleton] at hx'
                    subst hx'
                    exact htidf hx
                  · intro x hx hmemx
                    rcases List.mem_append.mp hmemx with hf | hf
                    · exact hdisj x hx hf
                    · rw [List.mem_singleton] at hf
                      subst hf
                      exact htidr hx
                  · refine finOrdered_append tasks st.finished tid hford ?_
                    intro d hd
                    exfalso
                    have hdd : idDeps tasks tid = [] := by
                      simp only [idDeps, hlk]
                    rw [hdd] at hd
                    cases hd
                obtain ⟨hinv', hrs, hext, hall⟩ := ih rest _ st' h2 hinv1
                have hrsc : st'.recStack = st.recStack := hrs
                refine ⟨hinv', hrsc, ?_, ?_⟩
                · obtain ⟨ext, hexteq⟩ := hext
                  have hexteqc : st'.finished = (st.finished ++ [tid]) ++ ext := hexteq
                  refine ⟨[tid] ++ ext, ?_⟩
                  rw [hexteqc]
                  simp
                · intro x hx
                  rcases List.mem_cons.mp hx with rfl | hx'
                  · obtain ⟨ext, hexteq⟩ := hext
                    have hexteqc : st'.finished = (st.finished ++ [x]) ++ ext := hexteq
                    rw [hexteqc]
                    exact List.mem_append_left _ (List.mem_append_right _
                      (List.mem_singleton.mpr rfl))
                  · exact hall x hx'
            | some task =>
                rw [hlk] at h
                have h2 : (match hasCycleIds (taskLookup tasks) f task.dependencies
                      ⟨tid :: st.visited, tid :: st.recStack, st.finished⟩ with
                    | none => none
                    | some (true, st2) => some (true, st2)
                    | some (false, st2) =>
                        hasCycleIds (taskLookup tasks) f rest
                          ⟨st2.visited, st2.recStack.erase tid,
                            st2.finished ++ [tid]⟩) = some (false, st') := h
                cases hin : hasCycleIds (taskLookup tasks) f task.dependencies
                    ⟨tid :: st.visited, tid :: st.recStack, st.finished⟩ with
                | none =>
                    rw [hin] at h2
                    cases h2
                | some p =>
                    rw [hin] at h2
                    obtain ⟨b, st2⟩ := p
                    cases b with
                    | true => cases h2
                    | false =>
                        have h3 : hasCycleIds (taskLookup tasks) f rest
                            ⟨st2.visited, st2.recStack.erase tid,
                              st2.finished ++ [tid]⟩ = some (false, st') := h2
                        have hinv1 : CycleInv tasks
                            ⟨tid :: st.visited, tid :: st.recStack, st.finished⟩ := by
                          refine ⟨?_, hndf, ?_, ?_, hford⟩
                          · intro x
                            constructor
                            · intro hx
                              rcases List.mem_cons.mp hx with rfl | hx'
                              · exact Or.inr (List.mem_cons_self _ _)
                              · rcases (hmem x).mp hx' with hf | hrr
                                · exact Or.inl hf
                                · exact Or.inr (List.mem_cons_of_mem _ hrr)
                            · intro hx
                              rcases hx with hf | hrr
                              · exact List.mem_cons_of_mem _ ((hmem x).mpr (Or.inl hf))
                              · rcases List.mem_cons.mp hrr with rfl | hrr'
                                · exact List.mem_cons_self _ _
                                · exact List.mem_cons_of_mem _
                                    ((hmem x).mpr (Or.inr hrr'))
                          · exact List.nodup_cons.mpr ⟨htidr, hndr⟩
                          · intro x hx
                            rcases List.mem_cons.mp hx with rfl | hx'
                            · exact htidf
                            · exact hdisj x hx'
                        obtain ⟨hinv2, hrs2, hext2, hall2⟩ :=
                          ih task.dependencies _ st2 hin hinv1
                        obtain ⟨hmem2, hndf2, hndr2, hdisj2, hford2⟩ := hinv2
                        have hrs2c : st2.recStack = tid :: st.recStack := hrs2
                        have herase : st2.recStack.erase tid = st.recStack := by
                          rw [hrs2c, List.erase_cons_head]
                        have htidf2 : tid ∉ st2.finished :=
                          hdisj2 tid (by rw [hrs2c]; exact List.mem_cons_self _ _)
                        have htidr2 : tid ∉ st.recStack := htidr
                        have hdeps_fin : ∀ d ∈ idDeps tasks tid, d ∈ st2.finished := by
                          intro d hd
                          have hdd : idDeps tasks tid = task.dependencies := by
                            simp only [idDeps, hlk]
                          rw [hdd] at hd
                          exact hall2 d hd
                        have hinv3 : CycleInv tasks
                            ⟨st2.visited, st2.recStack.erase tid,
                              st2.finished ++ [tid]⟩ := by
                          rw [herase]
                          refine ⟨?_, ?_, hndr, ?_, ?_⟩
                          · intro x
                            constructor
                            · intro hx
                              rcases (hmem2 x).mp hx with hf | hrr
                              · exact Or.inl (List.mem_append_left _ hf)
                              · rw [hrs2c] at hrr
                                rcases List.mem_cons.mp hrr with rfl | hrr'
                                · exact Or.inl (List.mem_append_right _
                                    (List.mem_singleton.mpr rfl))
                                · exact Or.inr hrr'
                            · intro hx
                              rcases hx with hf | hrr
                              · rcases List.mem_append.mp hf with hf' | hf'
                                · exact (hmem2 x).mpr (Or.inl hf')
                                · rw [List.mem_singleton] at hf'
                                  subst hf'
                                  exact (hmem2 x).mpr (Or.inr
                                    (by rw [hrs2c]; exact List.mem_cons_self _ _))
                              · exact (hmem2 x).mpr (Or.inr
                                  (by rw [hrs2c]; exact List.mem_cons_of_mem _ hrr))
                          · rw [List.nodup_append]
                            refine ⟨hndf2, List.nodup_singleton _, ?_⟩
                            intro x hx hx'
                            rw [List.mem_singleton] at hx'
                            subst hx'
                            exact htidf2 hx
                          · intro x hx hmemx
                            rcases List.mem_append.mp hmemx with hf | hf
                            · exact hdisj2 x
                                (by rw [hrs2c]; exact List.mem_cons_of_mem _ hx) hf
                            · rw [List.mem_singleton] at hf
                              subst hf
                              exact htidr2 hx
                          · exact finOrdered_append tasks st2.finished tid
                              hford2 hdeps_fin
                        obtain ⟨hinv', hrs', hext', hall'⟩ := ih rest _ st' h3 hinv3
                        have hrs'c : st'.recStack = st2.recStack.erase tid := hrs'
                        refine ⟨hinv', hrs'c.trans herase, ?_, ?_⟩
                        · obtain ⟨ext3, hext3⟩ := hext'
                          obtain ⟨ext2e, hext2e⟩ := hext2
                          have hext3c : st'.finished =
                              (st2.finished ++ [tid]) ++ ext3 := hext3
                          have hext2c : st2.finished = st.finished ++ ext2e := hext2e
                          refine ⟨ext2e ++ [tid] ++ ext3, ?_⟩
                          rw [hext3c, hext2c]
                          simp
                        · intro x hx
                          rcases List.mem_cons.mp hx with rfl | hx'
                          · obtain ⟨ext3, hext3⟩ := hext'
                            have hext3c : st'.finished =
                                (st2.finished ++ [x]) ++ ext3 := hext3
                            rw [hext3c]
                            exact List.mem_append_left _ (List.mem_append_right _
                              (List.mem_singleton.mpr rfl))
                          · exact hall' x hx'

/-! ### Claim C4: cyclic plans fail validation and the DFS terminates -/

/-- Claim C4: under the documented plan invariant that task ids are unique, a
plan whose dependency graph contains a cycle fails validation --
`validatePlan` returns `valid = false` and its errors include
`Plan contains circular dependencies` -- and the `getExecutionOrder` DFS never
exhausts its fuel (its visited-set guard bounds the pending work), so it
terminates and returns a result on every task list, cyclic ones included. -/
theorem cyclic_plan_rejected :
    (∀ (plan : TaskPlan), (idsOf plan.tasks).Nodup →
      (∃ x, Relation.TransGen (depEdge plan.tasks) x x) →
      (validatePlan plan).valid = false ∧
      "Plan contains circular dependencies" ∈ (validatePlan plan).errors) ∧
    (∀ (tasks : List Task), ∃ st,
      visitIds (taskLookup tasks) (standardFuel tasks)
        (tasks.map (fun t => t.id)) ⟨[], []⟩ = some st ∧
      getExecutionOrder tasks = st.result) := by
  constructor
  · intro plan hnd hcyc
    have hdc : detectCycles plan.tasks = true := by
      by_contra hfalse
      have hdc0 : detectCycles plan.tasks = false := by
        cases hb : detectCycles plan.tasks with
        | false => rfl
        | true => exact absurd hb hfalse
      unfold detectCycles at hdc0
      cases hres : hasCycleIds (taskLookup plan.tasks) (standardFuel plan.tasks)
          (plan.tasks.map (fun t => t.id)) ⟨[], [], []⟩ with
      | none =>
          rw [hres] at hdc0
          cases hdc0
      | some p =>
          rw [hres] at hdc0
          obtain ⟨b, st'⟩ := p
          cases b with
          | true => cases hdc0
          | false =>
              have hinv0 : CycleInv plan.tasks ⟨[], [], []⟩ := by
                refine ⟨by simp, List.nodup_nil, List.nodup_nil, ?_, ?_⟩
                · intro x hx
                  cases hx
                · intro i hi
                  simp at hi
              obtain ⟨hinv', hrs', hext', hall'⟩ :=
                hasCycleIds_false_spec plan.tasks (standardFuel plan.tasks)
                  (plan.tasks.map (fun t => t.id)) ⟨[], [], []⟩ st' hres hinv0
              obtain ⟨_, _, _, _, hford⟩ := hinv'
              have hcover : ∀ a b, b ∈ idDeps plan.tasks a → a ∈ st'.finished := by
                intro a b hb
                cases hlk : taskLookup plan.tasks a with
                | none =>
                    have hdd : idDeps plan.tasks a = [] := by
                      simp only [idDeps, hlk]
                    rw [hdd] at hb
                    cases hb
                | some t =>
                    obtain ⟨hmemt, hidt⟩ := taskLookup_mem hlk
                    exact hall' a (hidt ▸ List.mem_map_of_mem (fun w => w.id) hmemt)
              have hacyc := finOrdered_acyclic plan.tasks st'.finished hford hcover
              obtain ⟨x, hx⟩ := hcyc
              apply hacyc x
              refine Relation.TransGen.mono ?_ hx
              rintro a b ⟨t, ht, hid, hdep⟩
              have hlk : taskLookup plan.tasks t.id = some t := taskLookup_self hnd ht
              subst hid
              simp only [idDeps, hlk]
              exact hdep
    refine ⟨?_, ?_⟩
    · simp [validatePlan, hdc]
    · simp [validatePlan, hdc]
  · intro tasks
    obtain ⟨st, hst⟩ := visitIds_isSome tasks (standardFuel tasks)
      (tasks.map (fun t => t.id)) ⟨[], []⟩
      (by unfold standardFuel; simp only [List.length_map]; omega)
    refine ⟨st, hst, ?_⟩
    unfold getExecutionOrder
    rw [hst]

/-- Witness for C4: the concrete two-cycle plan `A -> B -> A` is rejected with
the circular-dependency error. -/
theorem cyclic_plan_rejected_witness :
    (validatePlan cyclicPlan).valid = false ∧
    "Plan contains circular dependencies" ∈ (validatePlan cyclicPlan).errors := by
  have hedgeAB : depEdge cyclicPlan.tasks "A" "B" :=
    ⟨taskCycA, List.mem_cons_self _ _, rfl, by decide⟩
  have hedgeBA : depEdge cyclicPlan.tasks "B" "A" :=
    ⟨taskCycB, List.mem_cons_of_mem _ (List.mem_cons_self _ _), rfl, by decide⟩
  exact cyclic_plan_rejected.1 cyclicPlan (by decide)
    ⟨"A", Relation.TransGen.tail (Relation.TransGen.single hedgeAB) hedgeBA⟩

end NipponCode
